import Mathlib

/-!
# Verification of `git-of-theseus` (`git_of_theseus/analyze.py`)

A shallow embedding of the `analyze` pipeline: commit sampling along the
first-parent mainline, the trackable-file predicate `entry_path_ok`, the
blame-based per-file histograms of `get_file_histogram`, the per-checkpoint
cache of file histograms, and the accumulation of the aligned time series
and of the survival (`commit_history`) document.

External collaborators (GitPython's repository object, `fnmatch`, `strftime`,
the Pygments filetype catalog) are modelled as parameters: a `Repo` structure
bundling `lookup`/`tree`/`blame`/`diff`, and function-valued `Config` fields
for `fnmatch` and the cohort formatter.  Python dicts are modelled as
association lists with dict update semantics (update in place, append new
keys at the end), so that insertion order — which the source relies on when
iterating `histogram.items()` — is preserved.
-/

set_option maxHeartbeats 1000000

namespace GitOfTheseus

/-- A git commit as the analyzer sees it: content hash, commit timestamp
(epoch seconds), author name, and the list of parent hashes. -/
structure Commit where
  hexsha : String
  committedDate : Int
  authorName : String
  parents : List String
deriving DecidableEq, Repr

/-- A file blob in a commit's tree: repository path and byte size. -/
structure Blob where
  path : String
  size : Nat
deriving DecidableEq, Repr

/-- Characters of the substring after the last `/` (cf. `os.path.split(path)[-1]`). -/
def baseNameChars : List Char → List Char
  | [] => []
  | c :: rest =>
    if c = '/' then baseNameChars rest
    else if '/' ∈ rest then baseNameChars rest
    else c :: rest

/-- `os.path.split(path)[-1]`: the base file name of a path. -/
def baseName (p : String) : String := ⟨baseNameChars p.data⟩

/-- GitPython's `entry.name`: the last component of the entry's path. -/
def Blob.name (b : Blob) : String := baseName b.path

/-- Characters after the last occurrence of `sep` (the list itself if absent). -/
def afterLast (sep : Char) : List Char → List Char
  | [] => []
  | c :: rest =>
    if c = sep then afterLast sep rest
    else if sep ∈ rest then afterLast sep rest
    else c :: rest

/-- `os.path.splitext(path)[1]`: the extension, with the dot, of the base
name; leading dots of the base name do not start an extension. -/
def extOf (path : String) : String :=
  let base := (baseName path).data
  let stem := base.dropWhile (fun c => c = '.')
  if '.' ∈ stem then ⟨'.' :: afterLast '.' stem⟩ else ""

/-- A dimension key: the `(datum-name, datum-value)` pairs of the source,
one constructor per datum name. -/
inductive Key where
  | cohort (label : String)
  | ext (e : String)
  | author (name : String)
  | filesize (n : Nat)
  | sha (s : String)
deriving DecidableEq, Repr

/-- The datum-name (kind) component of a key. -/
inductive Kind where
  | cohort | ext | author | filesize | sha
deriving DecidableEq, Repr

/-- Kind of a key. -/
def Key.kind : Key → Kind
  | .cohort _ => .cohort
  | .ext _ => .ext
  | .author _ => .author
  | .filesize _ => .filesize
  | .sha _ => .sha

/-- A histogram: a Python dict from keys to line counts, as an assoc list. -/
abbrev Hist := List (Key × Nat)

/-- Assoc-list lookup (Python `d.get(k)`). -/
def aGet? {α β : Type} [DecidableEq α] : List (α × β) → α → Option β
  | [], _ => none
  | (k, v) :: t, a => if k = a then some v else aGet? t a

/-- Assoc-list lookup with default (Python `d.get(k, dflt)`). -/
def aGetD {α β : Type} [DecidableEq α] (m : List (α × β)) (a : α) (dflt : β) : β :=
  (aGet? m a).getD dflt

/-- Assoc-list store (Python `d[k] = v`): update in place, else append. -/
def aSet {α β : Type} [DecidableEq α] : List (α × β) → α → β → List (α × β)
  | [], a, b => [(a, b)]
  | (k, v) :: t, a, b => if k = a then (a, b) :: t else (k, v) :: aSet t a b

/-- `h.get(key, 0)` on a histogram. -/
def hget : Hist → Key → Nat
  | [], _ => 0
  | (k, n) :: t, key => if k = key then n else hget t key

/-- Python `key in h` on a histogram. -/
def hasKey : Hist → Key → Bool
  | [], _ => false
  | (k, _) :: t, key => if k = key then true else hasKey t key

/-- `h[key] = h.get(key, 0) + n`, with dict update semantics. -/
def hadd : Hist → Key → Nat → Hist
  | [], key, n => [(key, n)]
  | (k, m) :: t, key, n => if k = key then (k, m + n) :: t else (k, m) :: hadd t key n

/-- `for key, count in src.items(): h[key] = h.get(key, 0) + count`. -/
def mergeInto (h : Hist) (src : Hist) : Hist :=
  src.foldl (fun h kn => hadd h kn.1 kn.2) h

/-- Python-set insertion for the key universe `curves_set`. -/
def setInsert (s : List Key) (k : Key) : List Key :=
  if k ∈ s then s else s ++ [k]

/-- The configuration of one `analyze` run.  `fnmatch` and `defaultFiletypes`
stand for the external `fnmatch.fnmatch` primitive and the Pygments-derived
filetype catalog; `cohortfm` stands for `strftime` with the configured
cohort pattern. -/
structure Config where
  cohortfm : Int → String
  interval : Int
  ignore : List String
  only : List String
  allFiletypes : Bool
  fnmatch : String → String → Bool
  defaultFiletypes : List String

/-- The repository as the analyzer queries it: commit lookup by hash, the
blob list of a commit's tree, `repo.blame` (fallible: any exception is the
`error` case), and `commit.diff(other)` reduced to the set of touched paths
(the union of `a_blob`/`b_blob` paths of all diff entries). -/
structure Repo where
  lookup : String → Option Commit
  tree : String → List Blob
  blame : String → String → Except Unit (List (Commit × Nat))
  diff : Option String → String → List String

/-- `entry_path_ok`: a path is trackable iff its base name matches the
filetype catalog (unless `all_filetypes`), the full path matches all
`only` patterns, and the full path matches no `ignore` pattern. -/
def entry_path_ok (cfg : Config) (path : String) : Bool :=
  (cfg.allFiletypes || cfg.defaultFiletypes.any (fun ft => cfg.fnmatch (baseName path) ft))
    && cfg.only.all (fun pat => cfg.fnmatch path pat)
    && !(cfg.ignore.any (fun pat => cfg.fnmatch path pat))

/-- `get_blob_entries(commit)`: the trackable blobs of a commit's tree. -/
def get_blob_entries (cfg : Config) (tree : List Blob) : List Blob :=
  tree.filter (fun b => entry_path_ok cfg b.path)

/-- The precomputed maps of the initial full-ancestry walk: `commit2cohort`
(hash to cohort label) and `commit2timestamp` (hash to timestamp, restricted
to commits with exactly one parent), plus the repo and config. -/
structure Ctx where
  repo : Repo
  cfg : Config
  commit2cohort : List (String × String)
  commit2timestamp : List (String × Int)

/-- `commit2cohort` / `commit2timestamp` / config bundled, as built by the
`Listing all commits` loop over the full ancestry of the branch. -/
def mkCtx (repo : Repo) (cfg : Config) (allCommits : List Commit) : Ctx :=
  { repo := repo
    cfg := cfg
    commit2cohort := allCommits.map (fun c => (c.hexsha, cfg.cohortfm c.committedDate))
    commit2timestamp :=
      (allCommits.filter (fun c => c.parents.length == 1)).map
        (fun c => (c.hexsha, c.committedDate)) }

/-- The keys one blame entry `(old_commit, lines)` contributes for `path`:
cohort (with the `"MISSING"` fallback), extension, author, filesize (looked
up by comparing blob *names* against the full `path`), and — if the old
commit is in `commit2timestamp` — its sha. -/
def mkKeys (ctx : Ctx) (path : String) (e : Commit × Nat) : List Key :=
  let cohortLabel := aGetD ctx.commit2cohort e.1.hexsha "MISSING"
  let blobs := get_blob_entries ctx.cfg (ctx.repo.tree e.1.hexsha)
  let sizes := (blobs.filter (fun b => b.name == path)).map Blob.size
  let keys := [Key.cohort cohortLabel, Key.ext (extOf path),
               Key.author e.1.authorName, Key.filesize (sizes.headD 0)]
  if (aGet? ctx.commit2timestamp e.1.hexsha).isSome then keys ++ [Key.sha e.1.hexsha] else keys

/-- One iteration of the blame loop of `get_file_histogram`: add
`len(lines)` under every key of the entry. -/
def addEntry (ctx : Ctx) (path : String) (h : Hist) (e : Commit × Nat) : Hist :=
  (mkKeys ctx path e).foldl (fun h k => hadd h k e.2) h

/-- `get_file_histogram(commit, path)`: blame the path at the commit and
histogram the line counts; any blame failure is caught and yields the empty
histogram. -/
def get_file_histogram (ctx : Ctx) (commitSha : String) (path : String) : Hist :=
  match ctx.repo.blame commitSha path with
  | .error _ => []
  | .ok entries => entries.foldl (addEntry ctx path) []

/-- The selection test of the backtracking loop:
`last_date is None or commit.committed_date < last_date - interval`. -/
def wantCheckpoint (interval : Int) (lastDate : Option Int) (c : Commit) : Bool :=
  match lastDate with
  | none => true
  | some d => c.committedDate < d - interval

/-- `commit.parents[0]` resolved through the repository. -/
def nextOf (lookup : String → Option Commit) (c : Commit) : Option Commit :=
  match c.parents.head? with
  | none => none
  | some pSha => lookup pSha

/-- The `Backtracking the master branch` loop: from the tip, follow first
parents; stop at a parentless commit (before selecting it); select a commit
when there is no previous selection or its date is more than `interval`
older than the previous selection.  `fuel` bounds the walk (the chain is
finite in a real repository); a failing parent lookup ends the walk. -/
def backtrack (lookup : String → Option Commit) (interval : Int) :
    Nat → Commit → Option Int → List Commit
  | 0, _, _ => []
  | fuel + 1, commit, lastDate =>
    if commit.parents.isEmpty then []
    else
      let takeIt := wantCheckpoint interval lastDate commit
      let newLast := if takeIt then some commit.committedDate else lastDate
      let tail :=
        match nextOf lookup commit with
        | none => []
        | some p => backtrack lookup interval fuel p newLast
      if takeIt then commit :: tail else tail

/-- `reversed(master_commits)`: the chronological checkpoint list. -/
def masterCommitsOf (repo : Repo) (cfg : Config) (head : Commit) (fuel : Nat) : List Commit :=
  (backtrack repo.lookup cfg.interval fuel head none).reverse

/-- The file-histogram cache `file_histograms` (path to histogram). -/
abbrev Cache := List (String × Hist)

/-- One iteration of the blob loop of a checkpoint: recompute the path's
histogram if the path changed or is uncached, then merge the cached value
into the checkpoint histogram. -/
def blobStep (ctx : Ctx) (cSha : String) (changed : List String)
    (acc : Cache × Hist) (b : Blob) : Cache × Hist :=
  let cache :=
    if b.path ∈ changed ∨ aGet? acc.1 b.path = none then
      aSet acc.1 b.path (get_file_histogram ctx cSha b.path)
    else acc.1
  (cache, mergeInto acc.2 (aGetD cache b.path []))

/-- Process one checkpoint's blobs: diff against the previous checkpoint,
then fold `blobStep` over the trackable blobs, producing the updated cache
and the merged checkpoint histogram. -/
def stepCacheHist (ctx : Ctx) (lastCommit : Option String) (cache : Cache)
    (c : Commit) : Cache × Hist :=
  let changed := ctx.repo.diff lastCommit c.hexsha
  let blobs := get_blob_entries ctx.cfg (ctx.repo.tree c.hexsha)
  blobs.foldl (blobStep ctx c.hexsha changed) (cache, [])

/-- The mutable state of the `Analyzing commit history` loop. -/
structure AState where
  curves : List (Key × List Nat)
  ts : List Int
  cache : Cache
  lastCommit : Option String
  commitHistory : List (String × List (Int × Nat))

/-- `d.setdefault(k, []).append(v)` on an assoc list of lists. -/
def setdefaultAppend {α β : Type} [DecidableEq α] :
    List (α × List β) → α → β → List (α × List β)
  | [], k, v => [(k, [v])]
  | (k', l) :: t, k, v =>
    if k' = k then (k', l ++ [v]) :: t else (k', l) :: setdefaultAppend t k v

/-- The survival recording of one checkpoint: for every `('sha', s)` key of
the checkpoint histogram, append `(date, count)` to `commit_history[s]`. -/
def chStep (date : Int) (m : List (String × List (Int × Nat))) (kn : Key × Nat) :
    List (String × List (Int × Nat)) :=
  match kn.1 with
  | Key.sha s => setdefaultAppend m s (date, kn.2)
  | _ => m

/-- One iteration of the checkpoint loop: record the timestamp, compute the
checkpoint histogram through the cache, record survival entries, and append
one count per key of the key universe to its curve. -/
def stepA (ctx : Ctx) (curvesSet : List Key) (st : AState) (c : Commit) : AState :=
  let p := stepCacheHist ctx st.lastCommit st.cache c
  let hist := p.2
  { curves := curvesSet.foldl (fun cur k => setdefaultAppend cur k (hget hist k)) st.curves
    ts := st.ts ++ [c.committedDate]
    cache := p.1
    lastCommit := some c.hexsha
    commitHistory := hist.foldl (chStep c.committedDate) st.commitHistory }

/-- Initial loop state: empty curves, timestamps, cache and survival data. -/
def initAState : AState :=
  { curves := [], ts := [], cache := [], lastCommit := none, commitHistory := [] }

/-- The `Analyzing commit history` loop over the chronological checkpoints. -/
def analyzeLoop (ctx : Ctx) (curvesSet : List Key) (cps : List Commit) : AState :=
  cps.foldl (stepA ctx curvesSet) initAState

/-- What `analyze` accumulates: the curves, the checkpoint timestamps, the
survival document (`commit_history`), the key universe `curves_set`, the
chronological checkpoint list `reversed(master_commits)`, and the context
of the run. -/
structure AnalyzeResult where
  curves : List (Key × List Nat)
  ts : List Int
  commitHistory : List (String × List (Int × Nat))
  curvesSet : List Key
  masterCommits : List Commit
  ctx : Ctx

/-- The key universe `curves_set`: cohort and author keys from the
full-ancestry walk, extension and filesize keys from the blob scan of the
chronological checkpoints. -/
def curvesSetOf (repo : Repo) (cfg : Config) (allCommits : List Commit)
    (cps : List Commit) : List Key :=
  let cs0 := allCommits.foldl
    (fun s c => setInsert (setInsert s (Key.cohort (cfg.cohortfm c.committedDate)))
      (Key.author c.authorName)) []
  cps.foldl
    (fun s c => (get_blob_entries cfg (repo.tree c.hexsha)).foldl
      (fun s b => setInsert (setInsert s (Key.ext (extOf b.path))) (Key.filesize b.size)) s)
    cs0

/-- `analyze(repo, ...)`: build `commit2cohort`/`commit2timestamp` and the
cohort/author keys from the full-ancestry commit list, sample the mainline
checkpoints, add extension/filesize keys from every trackable blob of every
checkpoint, then run the checkpoint loop. -/
def analyze (repo : Repo) (cfg : Config) (allCommits : List Commit)
    (head : Commit) (fuel : Nat) : AnalyzeResult :=
  let ctx := mkCtx repo cfg allCommits
  let cps := masterCommitsOf repo cfg head fuel
  let cs := curvesSetOf repo cfg allCommits cps
  let st := analyzeLoop ctx cs cps
  { curves := st.curves, ts := st.ts, commitHistory := st.commitHistory,
    curvesSet := cs, masterCommits := cps, ctx := ctx }

/-- The histograms of the successive checkpoints, replaying the loop's cache
evolution (`lastCommit`/`cache` threaded exactly as in `stepA`). -/
def checkpointHistsAux (ctx : Ctx) : Option String → Cache → List Commit → List Hist
  | _, _, [] => []
  | lastC, cache, c :: rest =>
    let p := stepCacheHist ctx lastC cache c
    p.2 :: checkpointHistsAux ctx (some c.hexsha) p.1 rest

/-- The per-checkpoint histograms of a run. -/
def checkpointHists (ctx : Ctx) (cps : List Commit) : List Hist :=
  checkpointHistsAux ctx none [] cps

/-- The cache evolution, replaying the loop. -/
def loopCacheAux (ctx : Ctx) : Option String → Cache → List Commit → Cache
  | _, cache, [] => cache
  | lastC, cache, c :: rest =>
    loopCacheAux ctx (some c.hexsha) (stepCacheHist ctx lastC cache c).1 rest

/-- The cache contents after processing a checkpoint list. -/
def cacheAfter (ctx : Ctx) (cps : List Commit) : Cache :=
  loopCacheAux ctx none [] cps

/-- The hash of the checkpoint preceding index `i` (none for the first). -/
def prevShaAt (cps : List Commit) : Nat → Option String
  | 0 => none
  | i + 1 => (cps.get? i).map Commit.hexsha

/-- The line total reported by blame for one path at one commit (0 when
blame fails). -/
def blameTotal (ctx : Ctx) (commitSha : String) (path : String) : Nat :=
  match ctx.repo.blame commitSha path with
  | .error _ => 0
  | .ok es => (es.map (fun e => e.2)).sum

/-- Whether blame succeeds for a path at a commit. -/
def blameOk (ctx : Ctx) (commitSha : String) (path : String) : Bool :=
  match ctx.repo.blame commitSha path with
  | .ok _ => true
  | .error _ => false

/-- The number of blamed lines over all trackable files of a commit's tree:
the total of currently-live trackable lines, with blame as ground truth. -/
def totalLive (ctx : Ctx) (c : Commit) : Nat :=
  ((get_blob_entries ctx.cfg (ctx.repo.tree c.hexsha)).map
    (fun b => blameTotal ctx c.hexsha b.path)).sum

/-- Sum of the counts of all keys of one kind in a histogram. -/
def kindSum : Hist → Kind → Nat
  | [], _ => 0
  | (k, n) :: t, κ => (if k.kind = κ then n else 0) + kindSum t κ

/-- The histogram a fresh (cache-free) recomputation of checkpoint `c` would
produce: merge the freshly blamed histogram of every trackable blob. -/
def freshHist (ctx : Ctx) (c : Commit) : Hist :=
  (get_blob_entries ctx.cfg (ctx.repo.tree c.hexsha)).foldl
    (fun h b => mergeInto h (get_file_histogram ctx c.hexsha b.path)) []

/-- Coherence of diff-based change detection with blame between two
consecutive checkpoints: a path present and undiffed at the newer checkpoint
was present at the older one with the same fresh histogram.  This is the
contract the source assumes of git's diff and blame. -/
def coherentStep (ctx : Ctx) (c c' : Commit) : Prop :=
  ∀ b ∈ get_blob_entries ctx.cfg (ctx.repo.tree c'.hexsha),
    b.path ∉ ctx.repo.diff (some c.hexsha) c'.hexsha →
      (∃ b0 ∈ get_blob_entries ctx.cfg (ctx.repo.tree c.hexsha), b0.path = b.path) ∧
      get_file_histogram ctx c.hexsha b.path = get_file_histogram ctx c'.hexsha b.path

instance decCoherentStep (ctx : Ctx) (c c' : Commit) : Decidable (coherentStep ctx c c') :=
  inferInstanceAs (Decidable (∀ b ∈ get_blob_entries ctx.cfg (ctx.repo.tree c'.hexsha),
    b.path ∉ ctx.repo.diff (some c.hexsha) c'.hexsha →
      (∃ b0 ∈ get_blob_entries ctx.cfg (ctx.repo.tree c.hexsha), b0.path = b.path) ∧
      get_file_histogram ctx c.hexsha b.path = get_file_histogram ctx c'.hexsha b.path))

/-- The sparse survival entries of source commit `s` over a list of
(checkpoint, histogram) pairs: one `(date, count)` pair per checkpoint whose
histogram carries the `('sha', s)` key. -/
def survivalEntries (s : String) : List (Commit × Hist) → List (Int × Nat)
  | [] => []
  | (c, h) :: rest =>
    (if hasKey h (Key.sha s) then [(c.committedDate, hget h (Key.sha s))] else [])
      ++ survivalEntries s rest

/-- The checkpoints of a run zipped with their histograms. -/
def analyzeHists (res : AnalyzeResult) : List (Commit × Hist) :=
  res.masterCommits.zip (checkpointHists res.ctx res.masterCommits)

/-- Per-checkpoint totals of the cohort dimension of the emitted curves. -/
def cohortTotals (res : AnalyzeResult) : List Nat :=
  (List.range res.ts.length).map (fun i =>
    ((res.curvesSet.filter (fun k => k.kind == Kind.cohort)).map
      (fun k => (aGetD res.curves k []).getD i 0)).sum)

/-! ## Concrete fixtures

Small repositories used to instantiate the theorems on concrete inputs:
a stand-in for Python's `fnmatch` on `*`/`?`/literals, the three-commit
single-file history of the spec's scenario, a two-file history with an
unchanged file, and repositories with a failing blame and with a blame
entry whose commit is absent from `commit2cohort`. -/

/-- Glob matching on `*`, `?` and literal characters, structurally
recursive on a fuel bound; stands in for the external `fnmatch.fnmatch`
in concrete instances. -/
def globMatchAux : Nat → List Char → List Char → Bool
  | 0, _, _ => false
  | fuel + 1, p, s =>
    match p, s with
    | [], [] => true
    | '*' :: ps, [] => globMatchAux fuel ps []
    | _ :: _, [] => false
    | [], _ :: _ => false
    | '*' :: ps, c :: cs => globMatchAux fuel ps (c :: cs) || globMatchAux fuel ('*' :: ps) cs
    | '?' :: ps, _ :: cs => globMatchAux fuel ps cs
    | p0 :: ps, c :: cs => (p0 = c) && globMatchAux fuel ps cs

/-- `fnmatch.fnmatch(name, pattern)` stand-in on strings. -/
def pyFnmatch (s pattern : String) : Bool :=
  globMatchAux (pattern.length + s.length + 1) pattern.data s.data

/-- Root commit of the three-commit scenario (adds the first line). -/
def commitR : Commit := ⟨"r", 0, "alice", []⟩

/-- Second commit of the scenario (adds the second line). -/
def commitM : Commit := ⟨"m", 100, "alice", ["r"]⟩

/-- Tip commit of the scenario (adds the third line). -/
def commitT : Commit := ⟨"t", 200, "alice", ["m"]⟩

/-- Full-ancestry commit list of the scenario, newest first. -/
def all1 : List Commit := [commitT, commitM, commitR]

/-- Trees of the scenario: one file `f.py` growing by one line per commit. -/
def tree1 (sha : String) : List Blob :=
  if sha = "r" then [⟨"f.py", 1⟩]
  else if sha = "m" then [⟨"f.py", 2⟩]
  else if sha = "t" then [⟨"f.py", 3⟩] else []

/-- Blame of the scenario: each commit owns the single line it added. -/
def blame1 (sha path : String) : Except Unit (List (Commit × Nat)) :=
  if path = "f.py" then
    if sha = "r" then .ok [(commitR, 1)]
    else if sha = "m" then .ok [(commitR, 1), (commitM, 1)]
    else if sha = "t" then .ok [(commitR, 1), (commitM, 1), (commitT, 1)]
    else .error ()
  else .error ()

/-- The scenario repository. -/
def repo1 : Repo :=
  { lookup := fun sha =>
      if sha = "r" then some commitR
      else if sha = "m" then some commitM
      else if sha = "t" then some commitT else none
    tree := tree1
    blame := blame1
    diff := fun _ _ => ["f.py"] }

/-- Scenario configuration: `interval = 0`, no pattern filters. -/
def cfg1 : Config :=
  { cohortfm := fun d => if d = 0 then "2020" else if d = 100 then "2021" else "2022"
    interval := 0
    ignore := []
    only := []
    allFiletypes := true
    fnmatch := pyFnmatch
    defaultFiletypes := ["*.py"] }

/-- The scenario run. -/
def res1 : AnalyzeResult := analyze repo1 cfg1 all1 commitT 10

/-- Context of the scenario run. -/
def ctx1 : Ctx := mkCtx repo1 cfg1 all1

/-- Root of the two-file history. -/
def commitQ0 : Commit := ⟨"q0", 0, "bob", []⟩

/-- Middle commit of the two-file history. -/
def commitQ1 : Commit := ⟨"q1", 100, "bob", ["q0"]⟩

/-- Tip of the two-file history; only `f.py` changes between `q1` and `q2`. -/
def commitQ2 : Commit := ⟨"q2", 200, "bob", ["q1"]⟩

/-- Full-ancestry list of the two-file history. -/
def all2 : List Commit := [commitQ2, commitQ1, commitQ0]

/-- Trees of the two-file history: `g.py` never changes after `q0`. -/
def tree2 (sha : String) : List Blob :=
  if sha = "q0" then [⟨"g.py", 5⟩]
  else if sha = "q1" then [⟨"f.py", 1⟩, ⟨"g.py", 5⟩]
  else if sha = "q2" then [⟨"f.py", 2⟩, ⟨"g.py", 5⟩] else []

/-- Blame of the two-file history: `g.py` is identical at `q1` and `q2`. -/
def blame2 (sha path : String) : Except Unit (List (Commit × Nat)) :=
  if path = "g.py" then
    if sha = "q0" ∨ sha = "q1" ∨ sha = "q2" then .ok [(commitQ0, 5)] else .error ()
  else if path = "f.py" then
    if sha = "q1" then .ok [(commitQ1, 1)]
    else if sha = "q2" then .ok [(commitQ2, 2)] else .error ()
  else .error ()

/-- The two-file repository; the diff into `q2` touches only `f.py`. -/
def repo2 : Repo :=
  { lookup := fun sha =>
      if sha = "q0" then some commitQ0
      else if sha = "q1" then some commitQ1
      else if sha = "q2" then some commitQ2 else none
    tree := tree2
    blame := blame2
    diff := fun _ cur => if cur = "q2" then ["f.py"] else ["f.py", "g.py"] }

/-- The two-file run. -/
def res2 : AnalyzeResult := analyze repo2 cfg1 all2 commitQ2 10

/-- Context of the two-file run. -/
def ctx2 : Ctx := mkCtx repo2 cfg1 all2

/-- A repository whose blame always fails. -/
def repo3 : Repo :=
  { lookup := fun _ => none
    tree := fun _ => [⟨"bad.py", 7⟩]
    blame := fun _ _ => .error ()
    diff := fun _ _ => [] }

/-- Context over the failing-blame repository. -/
def ctx3 : Ctx := mkCtx repo3 cfg1 []

/-- A ghost commit that is absent from the full-ancestry maps. -/
def commitG : Commit := ⟨"ghost", 50, "carol", ["x"]⟩

/-- A repository whose blame reports lines of the ghost commit for
`deep/h.py` (a path inside a subdirectory). -/
def repo4 : Repo :=
  { lookup := fun _ => none
    tree := fun _ => [⟨"deep/h.py", 9⟩]
    blame := fun _ path => if path = "deep/h.py" then .ok [(commitG, 2)] else .error ()
    diff := fun _ _ => [] }

/-- Context over `repo4`, built from an ancestry that excludes the ghost. -/
def ctx4 : Ctx := mkCtx repo4 cfg1 all1

/-! ## Helper lemmas -/

theorem aGet?_aSet_self {α β : Type} [DecidableEq α] (m : List (α × β)) (a : α) (b : β) :
    aGet? (aSet m a b) a = some b := by
  induction m with
  | nil => simp [aSet, aGet?]
  | cons kv t ih =>
    obtain ⟨k, v⟩ := kv
    by_cases h : k = a <;> simp [aSet, aGet?, h, ih]

theorem aGet?_aSet_ne {α β : Type} [DecidableEq α] (m : List (α × β)) (a a' : α) (b : β)
    (h : a ≠ a') : aGet? (aSet m a b) a' = aGet? m a' := by
  induction m with
  | nil => simp [aSet, aGet?, h]
  | cons kv t ih =>
    obtain ⟨k, v⟩ := kv
    by_cases hk : k = a
    · subst hk
      simp [aSet, aGet?, h]
    · simp only [aSet, if_neg hk]
      by_cases hk' : k = a' <;> simp [aGet?, hk', ih]

theorem aGet?_setdefaultAppend_self {α β : Type} [DecidableEq α]
    (m : List (α × List β)) (k : α) (v : β) :
    aGet? (setdefaultAppend m k v) k = some (aGetD m k [] ++ [v]) := by
  induction m with
  | nil => simp [setdefaultAppend, aGet?, aGetD]
  | cons kv t ih =>
    obtain ⟨k', l⟩ := kv
    by_cases h : k' = k <;> simp [setdefaultAppend, aGet?, aGetD, h, ih]

theorem aGet?_setdefaultAppend_ne {α β : Type} [DecidableEq α]
    (m : List (α × List β)) (k k' : α) (v : β) (h : k ≠ k') :
    aGet? (setdefaultAppend m k v) k' = aGet? m k' := by
  induction m with
  | nil => simp [setdefaultAppend, aGet?, h]
  | cons kv t ih =>
    obtain ⟨k0, l⟩ := kv
    by_cases hk : k0 = k
    · subst hk
      simp [setdefaultAppend, aGet?, h]
    · simp only [setdefaultAppend, if_neg hk]
      by_cases hk' : k0 = k' <;> simp [aGet?, hk', ih]

theorem hget_hadd (h : Hist) (k key : Key) (n : Nat) :
    hget (hadd h k n) key = hget h key + (if k = key then n else 0) := by
  induction h with
  | nil => by_cases hk : k = key <;> simp [hadd, hget, hk]
  | cons kv t ih =>
    obtain ⟨k', m⟩ := kv
    by_cases hk : k' = k
    · subst hk
      by_cases hk2 : k' = key <;> simp [hadd, hget, hk2] <;> omega
    · simp only [hadd, if_neg hk]
      by_cases hk2 : k' = key
      · have hkk : ¬k = key := fun h => hk (hk2.trans h.symm)
        simp [hget, hk2, hkk]
      · simp [hget, hk2, ih]

theorem hasKey_hadd (h : Hist) (k key : Key) (n : Nat) :
    hasKey (hadd h k n) key = (hasKey h key || k = key) := by
  induction h with
  | nil => by_cases hk : k = key <;> simp [hadd, hasKey, hk]
  | cons kv t ih =>
    obtain ⟨k', m⟩ := kv
    by_cases hk : k' = k
    · subst hk
      by_cases hk2 : k' = key <;> simp [hadd, hasKey, hk2]
    · simp only [hadd, if_neg hk]
      by_cases hk2 : k' = key
      · simp [hasKey, hk2]
      · simp [hasKey, hk2, ih]

theorem kindSum_hadd (h : Hist) (k : Key) (n : Nat) (κ : Kind) :
    kindSum (hadd h k n) κ = kindSum h κ + (if k.kind = κ then n else 0) := by
  induction h with
  | nil => by_cases hk : k.kind = κ <;> simp [hadd, kindSum, hk]
  | cons kv t ih =>
    obtain ⟨k', m⟩ := kv
    by_cases hk : k' = k
    · subst hk
      by_cases hk2 : k'.kind = κ <;> simp [hadd, kindSum, hk2] <;> omega
    · simp only [hadd, if_neg hk, kindSum, ih]
      omega

theorem kindSum_mergeInto (h src : Hist) (κ : Kind) :
    kindSum (mergeInto h src) κ = kindSum h κ + kindSum src κ := by
  induction src generalizing h with
  | nil => simp [mergeInto, kindSum]
  | cons kv t ih =>
    obtain ⟨k, n⟩ := kv
    show kindSum (mergeInto (hadd h k n) t) κ = _
    rw [ih, kindSum_hadd]
    simp [kindSum]
    omega

/-- Keys written by a fold of `hadd` over a duplicate-free key list. -/
theorem hget_foldHadd (L : List Key) (h : Hist) (n : Nat) (key : Key) (hnd : L.Nodup) :
    hget (L.foldl (fun h k => hadd h k n) h) key
      = hget h key + (if key ∈ L then n else 0) := by
  induction L generalizing h with
  | nil => simp
  | cons k t ih =>
    rcases List.nodup_cons.mp hnd with ⟨hk, hnd'⟩
    show hget (t.foldl (fun h k => hadd h k n) (hadd h k n)) key = _
    rw [ih _ hnd', hget_hadd]
    by_cases hkey : k = key
    · subst hkey
      simp [hk]
    · have hkey' : ¬key = k := fun h => hkey h.symm
      by_cases hmem : key ∈ t <;> simp [hkey, hkey', hmem]

theorem hasKey_foldHadd (L : List Key) (h : Hist) (n : Nat) (key : Key) :
    hasKey (L.foldl (fun h k => hadd h k n) h) key = (hasKey h key || key ∈ L) := by
  induction L generalizing h with
  | nil => simp
  | cons k t ih =>
    show hasKey (t.foldl (fun h k => hadd h k n) (hadd h k n)) key = _
    rw [ih, hasKey_hadd]
    by_cases hkey : k = key
    · subst hkey
      simp
    · have hkey' : ¬key = k := fun h => hkey h.symm
      by_cases hmem : key ∈ t <;> simp [hkey, hkey', hmem]

/-- The keys of one blame entry are pairwise distinct. -/
theorem mkKeys_nodup (ctx : Ctx) (path : String) (e : Commit × Nat) :
    (mkKeys ctx path e).Nodup := by
  unfold mkKeys
  split <;> simp

theorem hget_addEntry (ctx : Ctx) (path : String) (h : Hist) (e : Commit × Nat) (key : Key) :
    hget (addEntry ctx path h e) key
      = hget h key + (if key ∈ mkKeys ctx path e then e.2 else 0) :=
  hget_foldHadd _ h e.2 key (mkKeys_nodup ctx path e)

theorem hget_foldEntries (ctx : Ctx) (path : String) (es : List (Commit × Nat))
    (h : Hist) (key : Key) :
    hget (es.foldl (addEntry ctx path) h) key
      = hget h key + (es.map (fun e => if key ∈ mkKeys ctx path e then e.2 else 0)).sum := by
  induction es generalizing h with
  | nil => simp
  | cons e t ih =>
    show hget (t.foldl (addEntry ctx path) (addEntry ctx path h e)) key = _
    rw [ih, hget_addEntry]
    simp
    omega

/-- A base name contains no path separator. -/
theorem slash_not_mem_baseNameChars (l : List Char) : '/' ∉ baseNameChars l := by
  induction l with
  | nil => simp [baseNameChars]
  | cons c rest ih =>
    by_cases hc : c = '/'
    · simpa [baseNameChars, hc] using ih
    · by_cases hr : '/' ∈ rest
      · simpa [baseNameChars, hc, hr] using ih
      · simp [baseNameChars, hc, hr]
        exact fun h => hc h.symm

/-- A path without separator is its own base name. -/
theorem baseNameChars_of_no_slash (l : List Char) (h : '/' ∉ l) : baseNameChars l = l := by
  cases l with
  | nil => rfl
  | cons c rest =>
    have hc : c ≠ '/' := fun hx => h (hx ▸ List.mem_cons_self c rest)
    have hr : '/' ∉ rest := fun hx => h (List.mem_cons_of_mem c hx)
    have hc' : ¬c = '/' := hc
    simp [baseNameChars, hc', hr]

/-- A path that differs from its own base name contains a separator. -/
theorem slash_mem_of_ne_baseName (p : String) (h : p ≠ baseName p) : '/' ∈ p.data := by
  by_contra hn
  exact h (congrArg String.mk (baseNameChars_of_no_slash p.data hn)).symm

/-- No blob name can equal a path lying in a subdirectory. -/
theorem name_ne_of_subdir (b : Blob) (p : String) (h : p ≠ baseName p) : b.name ≠ p := by
  intro he
  have hmem : '/' ∈ p.data := slash_mem_of_ne_baseName p h
  have : '/' ∈ (Blob.name b).data := he ▸ hmem
  exact slash_not_mem_baseNameChars b.path.data this

/-- `commit_history` / curve state keys are unique in histograms built by
`hadd` from the empty dict. -/
def NodupKeys (h : Hist) : Prop := (h.map Prod.fst).Nodup

/-- Keys of `hadd h k n` come from `h` or are `k`. -/
theorem keys_hadd_sub (h : Hist) (k : Key) (n : Nat) (key : Key)
    (hmem : key ∈ (hadd h k n).map Prod.fst) : key ∈ h.map Prod.fst ∨ key = k := by
  induction h with
  | nil => simpa [hadd] using hmem
  | cons kv t ih =>
    obtain ⟨k', m⟩ := kv
    by_cases hkk : k' = k
    · subst hkk
      simp [hadd] at hmem ⊢
      tauto
    · simp only [hadd, if_neg hkk, List.map_cons, List.mem_cons] at hmem
      rcases hmem with h1 | h1
      · exact Or.inl (by simp [h1])
      · rcases ih h1 with h2 | h2
        · exact Or.inl (List.mem_cons_of_mem _ h2)
        · exact Or.inr h2

theorem nodupKeys_hadd (h : Hist) (k : Key) (n : Nat) (hnd : NodupKeys h) :
    NodupKeys (hadd h k n) := by
  induction h with
  | nil => simp [hadd, NodupKeys]
  | cons kv t ih =>
    obtain ⟨k', m⟩ := kv
    rcases List.nodup_cons.mp hnd with ⟨hk, hnd'⟩
    by_cases hkk : k' = k
    · subst hkk
      have hres : NodupKeys ((k', m + n) :: t) := by
        simp only [NodupKeys, List.map_cons]
        exact List.nodup_cons.mpr ⟨hk, hnd'⟩
      simpa [hadd] using hres
    · have h1 := ih hnd'
      simp only [hadd, if_neg hkk, NodupKeys, List.map_cons]
      refine List.nodup_cons.mpr ⟨?_, h1⟩
      intro hmem
      rcases keys_hadd_sub t k n k' hmem with h2 | h2
      · exact hk h2
      · exact hkk h2

theorem nodupKeys_mergeInto (h src : Hist) (hnd : NodupKeys h) :
    NodupKeys (mergeInto h src) := by
  induction src generalizing h with
  | nil => exact hnd
  | cons kv t ih => exact ih (hadd h kv.1 kv.2) (nodupKeys_hadd h kv.1 kv.2 hnd)

/-- In a key-unique histogram, a member pair's count is what `hget` reads. -/
theorem hget_of_mem_nodup (h : Hist) (k : Key) (n : Nat) (hnd : NodupKeys h)
    (hmem : (k, n) ∈ h) : hget h k = n := by
  induction h with
  | nil => simp at hmem
  | cons kv t ih =>
    obtain ⟨k', m⟩ := kv
    rcases List.nodup_cons.mp hnd with ⟨hk, hnd'⟩
    rcases List.mem_cons.mp hmem with h1 | h1
    · injection h1 with h2 h3
      simp [hget, h2.symm, h3]
    · have hne : k' ≠ k := by
        intro he
        subst he
        exact hk (by simpa using List.mem_map_of_mem Prod.fst h1)
      simp [hget, hne, ih hnd' h1]

theorem analyze_masterCommits (repo : Repo) (cfg : Config) (allCommits : List Commit)
    (head : Commit) (fuel : Nat) :
    (analyze repo cfg allCommits head fuel).masterCommits = masterCommitsOf repo cfg head fuel :=
  rfl

theorem analyze_ctx (repo : Repo) (cfg : Config) (allCommits : List Commit)
    (head : Commit) (fuel : Nat) :
    (analyze repo cfg allCommits head fuel).ctx = mkCtx repo cfg allCommits :=
  rfl

theorem analyze_curvesSet (repo : Repo) (cfg : Config) (allCommits : List Commit)
    (head : Commit) (fuel : Nat) :
    (analyze repo cfg allCommits head fuel).curvesSet
      = curvesSetOf repo cfg allCommits (masterCommitsOf repo cfg head fuel) :=
  rfl

theorem analyze_curves (repo : Repo) (cfg : Config) (allCommits : List Commit)
    (head : Commit) (fuel : Nat) :
    (analyze repo cfg allCommits head fuel).curves
      = (analyzeLoop (mkCtx repo cfg allCommits)
          (curvesSetOf repo cfg allCommits (masterCommitsOf repo cfg head fuel))
          (masterCommitsOf repo cfg head fuel)).curves :=
  rfl

theorem analyze_ts (repo : Repo) (cfg : Config) (allCommits : List Commit)
    (head : Commit) (fuel : Nat) :
    (analyze repo cfg allCommits head fuel).ts
      = (analyzeLoop (mkCtx repo cfg allCommits)
          (curvesSetOf repo cfg allCommits (masterCommitsOf repo cfg head fuel))
          (masterCommitsOf repo cfg head fuel)).ts :=
  rfl

theorem analyze_commitHistory (repo : Repo) (cfg : Config) (allCommits : List Commit)
    (head : Commit) (fuel : Nat) :
    (analyze repo cfg allCommits head fuel).commitHistory
      = (analyzeLoop (mkCtx repo cfg allCommits)
          (curvesSetOf repo cfg allCommits (masterCommitsOf repo cfg head fuel))
          (masterCommitsOf repo cfg head fuel)).commitHistory :=
  rfl

/-- Selected checkpoints, in selection (newest-to-oldest) order, are pairwise
separated by more than `interval`; the first one respects the incoming
`last_date` bound. -/
theorem backtrack_spec (lookup : String → Option Commit) (interval : Int) :
    ∀ (fuel : Nat) (c : Commit) (lastDate : Option Int),
      List.Chain' (fun a b => b.committedDate < a.committedDate - interval)
        (backtrack lookup interval fuel c lastDate) ∧
      ∀ d, lastDate = some d →
        ∀ x ∈ (backtrack lookup interval fuel c lastDate).head?,
          x.committedDate < d - interval := by
  intro fuel
  induction fuel with
  | zero =>
    intro c lastDate
    simp [backtrack]
  | succ n ih =>
    intro c lastDate
    by_cases hp : c.parents.isEmpty
    · simp [backtrack, hp]
    · cases hw : wantCheckpoint interval lastDate c with
      | true =>
        have hdate : ∀ d, lastDate = some d → c.committedDate < d - interval := by
          intro d hd
          rw [hd] at hw
          simpa [wantCheckpoint] using hw
        cases hnx : nextOf lookup c with
        | none =>
          simp only [backtrack, if_neg hp, hw, hnx, if_true]
          refine ⟨by simp, ?_⟩
          intro d hd x hx
          simp at hx
          exact hx ▸ hdate d hd
        | some p =>
          have hih := ih p (some c.committedDate)
          simp only [backtrack, if_neg hp, hw, hnx, if_true]
          constructor
          · refine List.chain'_cons'.mpr ⟨?_, hih.1⟩
            intro y hy
            exact hih.2 c.committedDate rfl y hy
          · intro d hd x hx
            simp at hx
            exact hx ▸ hdate d hd
      | false =>
        cases hnx : nextOf lookup c with
        | none =>
          simp [backtrack, if_neg hp, hw, hnx]
        | some p =>
          have hih := ih p lastDate
          simp only [backtrack, if_neg hp, hw, hnx, if_false]
          exact hih

/-- Over a key list without the sha kind, every blame entry adds its line
count once to each of the cohort, extension, author and filesize sums. -/
theorem kindSum_addEntry (ctx : Ctx) (path : String) (h : Hist) (e : Commit × Nat)
    (κ : Kind) (hκ : κ ≠ Kind.sha) :
    kindSum (addEntry ctx path h e) κ = kindSum h κ + e.2 := by
  cases κ with
  | sha => exact absurd rfl hκ
  | cohort =>
    unfold addEntry mkKeys
    split <;> simp [kindSum_hadd, Key.kind]
  | ext =>
    unfold addEntry mkKeys
    split <;> simp [kindSum_hadd, Key.kind]
  | author =>
    unfold addEntry mkKeys
    split <;> simp [kindSum_hadd, Key.kind]
  | filesize =>
    unfold addEntry mkKeys
    split <;> simp [kindSum_hadd, Key.kind]

theorem kindSum_foldEntries (ctx : Ctx) (path : String) (es : List (Commit × Nat))
    (h : Hist) (κ : Kind) (hκ : κ ≠ Kind.sha) :
    kindSum (es.foldl (addEntry ctx path) h) κ
      = kindSum h κ + (es.map (fun e => e.2)).sum := by
  induction es generalizing h with
  | nil => simp
  | cons e t ih =>
    show kindSum (t.foldl (addEntry ctx path) (addEntry ctx path h e)) κ = _
    rw [ih, kindSum_addEntry ctx path h e κ hκ]
    simp
    omega

/-- Whether blame succeeds or fails, every non-sha kind of a file's
histogram sums to the blame line total of that file. -/
theorem kindSum_get_file_histogram (ctx : Ctx) (commitSha path : String)
    (κ : Kind) (hκ : κ ≠ Kind.sha) :
    kindSum (get_file_histogram ctx commitSha path) κ = blameTotal ctx commitSha path := by
  unfold get_file_histogram blameTotal
  cases hb : ctx.repo.blame commitSha path with
  | error e => simp [kindSum]
  | ok es => simpa [kindSum] using kindSum_foldEntries ctx path es [] κ hκ

/-- Every non-sha kind of a fresh checkpoint histogram sums to the total
of blamed lines over all trackable files. -/
theorem kindSum_freshHist (ctx : Ctx) (c : Commit) (κ : Kind) (hκ : κ ≠ Kind.sha) :
    kindSum (freshHist ctx c) κ = totalLive ctx c := by
  unfold freshHist totalLive
  generalize get_blob_entries ctx.cfg (ctx.repo.tree c.hexsha) = blobs
  have hgen : ∀ (bs : List Blob) (h : Hist),
      kindSum (bs.foldl (fun h b => mergeInto h (get_file_histogram ctx c.hexsha b.path)) h) κ
        = kindSum h κ + (bs.map (fun b => blameTotal ctx c.hexsha b.path)).sum := by
    intro bs
    induction bs with
    | nil => simp
    | cons b t ih =>
      intro h
      show kindSum (t.foldl _ (mergeInto h (get_file_histogram ctx c.hexsha b.path))) κ = _
      rw [ih, kindSum_mergeInto, kindSum_get_file_histogram ctx c.hexsha b.path κ hκ]
      simp
      omega
  simpa [kindSum] using hgen blobs []

theorem length_checkpointHistsAux (ctx : Ctx) :
    ∀ (cps : List Commit) (lastC : Option String) (cache : Cache),
      (checkpointHistsAux ctx lastC cache cps).length = cps.length := by
  intro cps
  induction cps with
  | nil => intro lastC cache; rfl
  | cons c rest ih =>
    intro lastC cache
    simpa [checkpointHistsAux] using ih _ _

theorem length_checkpointHists (ctx : Ctx) (cps : List Commit) :
    (checkpointHists ctx cps).length = cps.length :=
  length_checkpointHistsAux ctx cps none []

/-- The `"MISSING"` cohort key is among an entry's keys whenever the
entry's commit is absent from `commit2cohort`. -/
theorem cohort_missing_mem_mkKeys (ctx : Ctx) (path : String) (e : Commit × Nat)
    (hmiss : aGet? ctx.commit2cohort e.1.hexsha = none) :
    Key.cohort "MISSING" ∈ mkKeys ctx path e := by
  simp only [mkKeys, aGetD, hmiss, Option.getD]
  split <;> simp

/-- For a path inside a subdirectory, the filesize lookup misses, so every
entry's filesize key is `filesize 0` and no other filesize key occurs. -/
theorem mkKeys_filesize_subdir (ctx : Ctx) (path : String) (e : Commit × Nat)
    (hsub : path ≠ baseName path) :
    Key.filesize 0 ∈ mkKeys ctx path e ∧
    ∀ m : Nat, m ≠ 0 → Key.filesize m ∉ mkKeys ctx path e := by
  have hfilter : (get_blob_entries ctx.cfg (ctx.repo.tree e.1.hexsha)).filter
      (fun b => b.name == path) = [] := by
    rw [List.filter_eq_nil]
    intro b hb
    simpa using name_ne_of_subdir b path hsub
  constructor
  · simp only [mkKeys, hfilter]
    split <;> simp
  · intro m hm
    simp only [mkKeys, hfilter]
    split <;> simp [hm]

/-- The cache update of one blob iteration. -/
theorem blobStep_fst (ctx : Ctx) (cSha : String) (changed : List String)
    (acc : Cache × Hist) (b : Blob) :
    (blobStep ctx cSha changed acc b).1
      = if b.path ∈ changed ∨ aGet? acc.1 b.path = none
        then aSet acc.1 b.path (get_file_histogram ctx cSha b.path)
        else acc.1 := rfl

/-- After one blob iteration, the blob's own cache slot holds its fresh
histogram, provided the incoming slot was absent, stale-but-diffed, or
already fresh. -/
theorem blobStep_cache_self (ctx : Ctx) (cSha : String) (changed : List String)
    (acc : Cache × Hist) (b : Blob)
    (hmb : b.path ∉ changed →
      aGet? acc.1 b.path = none ∨
      aGet? acc.1 b.path = some (get_file_histogram ctx cSha b.path)) :
    aGet? (blobStep ctx cSha changed acc b).1 b.path
      = some (get_file_histogram ctx cSha b.path) := by
  rw [blobStep_fst]
  by_cases hcond : b.path ∈ changed ∨ aGet? acc.1 b.path = none
  · rw [if_pos hcond]
    exact aGet?_aSet_self acc.1 b.path _
  · rw [if_neg hcond]
    push_neg at hcond
    rcases hmb hcond.1 with h | h
    · exact absurd h hcond.2
    · exact h

/-- One blob iteration leaves other cache slots unchanged. -/
theorem blobStep_cache_ne (ctx : Ctx) (cSha : String) (changed : List String)
    (acc : Cache × Hist) (b : Blob) (p : String) (hp : p ≠ b.path) :
    aGet? (blobStep ctx cSha changed acc b).1 p = aGet? acc.1 p := by
  rw [blobStep_fst]
  split
  · exact aGet?_aSet_ne acc.1 b.path p _ (fun h => hp h.symm)
  · rfl

/-- The histogram update of one blob iteration merges the served slot. -/
theorem blobStep_snd (ctx : Ctx) (cSha : String) (changed : List String)
    (acc : Cache × Hist) (b : Blob) :
    (blobStep ctx cSha changed acc b).2
      = mergeInto acc.2 (aGetD (blobStep ctx cSha changed acc b).1 b.path []) := rfl

/-- The blob loop of one checkpoint: if every undiffed path's incoming
cache slot is absent or already fresh, then afterwards every processed
path's slot is fresh, unprocessed slots are untouched, and the merged
histogram is exactly the merge of the fresh per-file histograms. -/
theorem blobStep_fold_spec (ctx : Ctx) (cSha : String) (changed : List String) :
    ∀ (blobs : List Blob) (cache : Cache) (hist : Hist),
      (∀ b ∈ blobs, b.path ∉ changed →
        aGet? cache b.path = none ∨
        aGet? cache b.path = some (get_file_histogram ctx cSha b.path)) →
      (∀ p ∈ blobs.map Blob.path,
        aGet? (blobs.foldl (blobStep ctx cSha changed) (cache, hist)).1 p
          = some (get_file_histogram ctx cSha p)) ∧
      (∀ p, p ∉ blobs.map Blob.path →
        aGet? (blobs.foldl (blobStep ctx cSha changed) (cache, hist)).1 p = aGet? cache p) ∧
      (blobs.foldl (blobStep ctx cSha changed) (cache, hist)).2
        = blobs.foldl (fun h b => mergeInto h (get_file_histogram ctx cSha b.path)) hist := by
  intro blobs
  induction blobs with
  | nil =>
    intro cache hist hmid
    exact ⟨by simp, fun p hp => rfl, rfl⟩
  | cons b bs ih =>
    intro cache hist hmid
    have hmb := hmid b (List.mem_cons_self b bs)
    have hself := blobStep_cache_self ctx cSha changed (cache, hist) b hmb
    have hmid' : ∀ b' ∈ bs, b'.path ∉ changed →
        aGet? (blobStep ctx cSha changed (cache, hist) b).1 b'.path = none ∨
        aGet? (blobStep ctx cSha changed (cache, hist) b).1 b'.path
          = some (get_file_histogram ctx cSha b'.path) := by
      intro b' hb' hnc
      by_cases hpp : b'.path = b.path
      · right
        rw [hpp, hself]
      · rw [blobStep_cache_ne ctx cSha changed (cache, hist) b b'.path hpp]
        exact hmid b' (List.mem_cons_of_mem b hb') hnc
    have hserve : aGetD (blobStep ctx cSha changed (cache, hist) b).1 b.path []
        = get_file_histogram ctx cSha b.path := by
      rw [aGetD, hself]
      rfl
    have hsnd : (blobStep ctx cSha changed (cache, hist) b).2
        = mergeInto hist (get_file_histogram ctx cSha b.path) := by
      rw [blobStep_snd, hserve]
    have hfold : (b :: bs).foldl (blobStep ctx cSha changed) (cache, hist)
        = bs.foldl (blobStep ctx cSha changed) (blobStep ctx cSha changed (cache, hist) b) :=
      rfl
    obtain ⟨IH1, IH2, IH3⟩ := ih (blobStep ctx cSha changed (cache, hist) b).1
      (blobStep ctx cSha changed (cache, hist) b).2 hmid'
    refine ⟨?_, ?_, ?_⟩
    · intro p hp
      rcases List.mem_cons.mp hp with hp | hp
      · by_cases hin : p ∈ bs.map Blob.path
        · exact IH1 p hin
        · rw [hfold, IH2 p hin, hp, hself]
      · exact IH1 p hp
    · intro p hp
      simp only [List.map_cons, List.mem_cons] at hp
      push_neg at hp
      rw [hfold, IH2 p hp.2,
        blobStep_cache_ne ctx cSha changed (cache, hist) b p hp.1]
    · rw [hfold, IH3, hsnd]
      rfl

/-- Every trackable blob of checkpoint `c` has a fresh cache slot. -/
def CacheFresh (ctx : Ctx) (c : Commit) (cache : Cache) : Prop :=
  ∀ b ∈ get_blob_entries ctx.cfg (ctx.repo.tree c.hexsha),
    aGet? cache b.path = some (get_file_histogram ctx c.hexsha b.path)

/-- One checkpoint step, under the cache precondition, refreshes the cache
for the checkpoint and computes the fresh checkpoint histogram. -/
theorem stepCacheHist_spec (ctx : Ctx) (lastC : Option String) (cache : Cache) (c : Commit)
    (hmid : ∀ b ∈ get_blob_entries ctx.cfg (ctx.repo.tree c.hexsha),
      b.path ∉ ctx.repo.diff lastC c.hexsha →
      aGet? cache b.path = none ∨
      aGet? cache b.path = some (get_file_histogram ctx c.hexsha b.path)) :
    CacheFresh ctx c (stepCacheHist ctx lastC cache c).1 ∧
    (stepCacheHist ctx lastC cache c).2 = freshHist ctx c := by
  have h := blobStep_fold_spec ctx c.hexsha (ctx.repo.diff lastC c.hexsha)
    (get_blob_entries ctx.cfg (ctx.repo.tree c.hexsha)) cache [] hmid
  exact ⟨fun b hb => h.1 b.path (List.mem_map_of_mem Blob.path hb), h.2.2⟩

/-- Freshness at the previous checkpoint plus diff/blame coherence gives
the cache precondition at the next checkpoint. -/
theorem mid_of_fresh (ctx : Ctx) (cPrev c : Commit) (cache : Cache)
    (hfresh : CacheFresh ctx cPrev cache) (hcoh : coherentStep ctx cPrev c) :
    ∀ b ∈ get_blob_entries ctx.cfg (ctx.repo.tree c.hexsha),
      b.path ∉ ctx.repo.diff (some cPrev.hexsha) c.hexsha →
      aGet? cache b.path = none ∨
      aGet? cache b.path = some (get_file_histogram ctx c.hexsha b.path) := by
  intro b hb hnc
  rcases hcoh b hb hnc with ⟨⟨b0, hb0, hpath⟩, heq⟩
  right
  have hv := hfresh b0 hb0
  rw [hpath] at hv
  rw [hv, heq]

/-- Along a coherent checkpoint chain the replayed histograms are the
fresh ones, checkpoint by checkpoint. -/
theorem checkpointHistsAux_spec (ctx : Ctx) :
    ∀ (cps : List Commit) (cPrev : Commit) (cache : Cache),
      CacheFresh ctx cPrev cache →
      List.Chain' (coherentStep ctx) (cPrev :: cps) →
      ∀ i c, cps.get? i = some c →
        (checkpointHistsAux ctx (some cPrev.hexsha) cache cps).get? i
          = some (freshHist ctx c) := by
  intro cps
  induction cps with
  | nil =>
    intro cPrev cache hfresh hch i c hc
    simp at hc
  | cons c1 rest ih =>
    intro cPrev cache hfresh hch i c hc
    have hcoh : coherentStep ctx cPrev c1 := (List.chain'_cons.mp hch).1
    have hch' : List.Chain' (coherentStep ctx) (c1 :: rest) := (List.chain'_cons.mp hch).2
    have hstep := stepCacheHist_spec ctx (some cPrev.hexsha) cache c1
      (mid_of_fresh ctx cPrev c1 cache hfresh hcoh)
    cases i with
    | zero =>
      simp at hc
      subst hc
      simp [checkpointHistsAux, hstep.2]
    | succ j =>
      simp only [List.get?_cons_succ] at hc
      simpa [checkpointHistsAux]
        using ih c1 (stepCacheHist ctx (some cPrev.hexsha) cache c1).1 hstep.1 hch' j c hc

/-- Along a coherent checkpoint chain every recorded checkpoint histogram
equals the fresh, cache-free recomputation. -/
theorem checkpointHists_spec (ctx : Ctx) (cps : List Commit)
    (hch : List.Chain' (coherentStep ctx) cps) :
    ∀ i c, cps.get? i = some c →
      (checkpointHists ctx cps).get? i = some (freshHist ctx c) := by
  cases cps with
  | nil =>
    intro i c hc
    simp at hc
  | cons c1 rest =>
    intro i c hc
    have hstep := stepCacheHist_spec ctx none [] c1 (by
      intro b hb hnc
      left
      rfl)
    cases i with
    | zero =>
      simp at hc
      subst hc
      simp [checkpointHists, checkpointHistsAux, hstep.2]
    | succ j =>
      simp only [List.get?_cons_succ] at hc
      simpa [checkpointHists, checkpointHistsAux]
        using checkpointHistsAux_spec ctx rest c1 _ hstep.1 hch j c hc

/-- Along a coherent chain the cache after processing the first `i + 1`
checkpoints is fresh for the `i`-th checkpoint. -/
theorem loopCacheAux_fresh (ctx : Ctx) :
    ∀ (cps : List Commit) (cPrev : Commit) (cache : Cache),
      CacheFresh ctx cPrev cache →
      List.Chain' (coherentStep ctx) (cPrev :: cps) →
      ∀ i c, cps.get? i = some c →
        CacheFresh ctx c (loopCacheAux ctx (some cPrev.hexsha) cache (cps.take (i + 1))) := by
  intro cps
  induction cps with
  | nil =>
    intro cPrev cache hfresh hch i c hc
    simp at hc
  | cons c1 rest ih =>
    intro cPrev cache hfresh hch i c hc
    have hcoh : coherentStep ctx cPrev c1 := (List.chain'_cons.mp hch).1
    have hch' : List.Chain' (coherentStep ctx) (c1 :: rest) := (List.chain'_cons.mp hch).2
    have hstep := stepCacheHist_spec ctx (some cPrev.hexsha) cache c1
      (mid_of_fresh ctx cPrev c1 cache hfresh hcoh)
    cases i with
    | zero =>
      simp at hc
      subst hc
      simpa [loopCacheAux] using hstep.1
    | succ j =>
      simp only [List.get?_cons_succ] at hc
      simpa [loopCacheAux]
        using ih c1 (stepCacheHist ctx (some cPrev.hexsha) cache c1).1 hstep.1 hch' j c hc

/-- Along a coherent chain `cacheAfter` of a take-prefix is fresh for the
last checkpoint of the prefix. -/
theorem cacheAfter_fresh (ctx : Ctx) (cps : List Commit)
    (hch : List.Chain' (coherentStep ctx) cps) :
    ∀ i c, cps.get? i = some c →
      CacheFresh ctx c (cacheAfter ctx (cps.take (i + 1))) := by
  cases cps with
  | nil =>
    intro i c hc
    simp at hc
  | cons c1 rest =>
    intro i c hc
    have hstep := stepCacheHist_spec ctx none [] c1 (by
      intro b hb hnc
      left
      rfl)
    cases i with
    | zero =>
      simp at hc
      subst hc
      simpa [cacheAfter, loopCacheAux] using hstep.1
    | succ j =>
      simp only [List.get?_cons_succ] at hc
      simpa [cacheAfter, loopCacheAux]
        using loopCacheAux_fresh ctx rest c1 _ hstep.1 hch j c hc

/-- Checkpoint histograms have duplicate-free key lists. -/
theorem nodupKeys_blobStep_fold (ctx : Ctx) (cSha : String) (changed : List String) :
    ∀ (blobs : List Blob) (acc : Cache × Hist), NodupKeys acc.2 →
      NodupKeys (blobs.foldl (blobStep ctx cSha changed) acc).2 := by
  intro blobs
  induction blobs with
  | nil =>
    intro acc h
    exact h
  | cons b bs ih =>
    intro acc h
    exact ih (blobStep ctx cSha changed acc b)
      (nodupKeys_mergeInto acc.2 _ h)

theorem nodupKeys_stepCacheHist (ctx : Ctx) (lastC : Option String) (cache : Cache)
    (c : Commit) : NodupKeys (stepCacheHist ctx lastC cache c).2 :=
  nodupKeys_blobStep_fold ctx c.hexsha (ctx.repo.diff lastC c.hexsha) _ (cache, [])
    (by simp [NodupKeys])

/-- The per-checkpoint curve update: every universe key's series gains the
checkpoint's count, other keys are untouched. -/
theorem curvesFold_spec (hist : Hist) :
    ∀ (cs : List Key) (cur : List (Key × List Nat)), cs.Nodup →
      (∀ k ∈ cs,
        aGetD (cs.foldl (fun cur k => setdefaultAppend cur k (hget hist k)) cur) k []
          = aGetD cur k [] ++ [hget hist k]) ∧
      (∀ k, k ∉ cs →
        aGet? (cs.foldl (fun cur k => setdefaultAppend cur k (hget hist k)) cur) k
          = aGet? cur k) := by
  intro cs
  induction cs with
  | nil =>
    intro cur hnd
    exact ⟨by simp, fun k hk => rfl⟩
  | cons k0 t ih =>
    intro cur hnd
    rcases List.nodup_cons.mp hnd with ⟨hk0, hnd'⟩
    obtain ⟨IH1, IH2⟩ := ih (setdefaultAppend cur k0 (hget hist k0)) hnd'
    have hfold : (k0 :: t).foldl (fun cur k => setdefaultAppend cur k (hget hist k)) cur
        = t.foldl (fun cur k => setdefaultAppend cur k (hget hist k))
            (setdefaultAppend cur k0 (hget hist k0)) := rfl
    constructor
    · intro k hk
      rcases List.mem_cons.mp hk with rfl | hk
      · rw [hfold]
        simp only [aGetD] at IH2 ⊢
        rw [IH2 k hk0, aGet?_setdefaultAppend_self]
        rfl
      · have hne : k0 ≠ k := fun h => hk0 (h ▸ hk)
        rw [hfold, IH1 k hk]
        simp only [aGetD]
        rw [aGet?_setdefaultAppend_ne cur k0 k _ hne]
    · intro k hk
      simp only [List.mem_cons, not_or] at hk
      rw [hfold, IH2 k hk.2, aGet?_setdefaultAppend_ne cur k0 k _ (fun h => hk.1 h.symm)]

/-- Folding the survival step over entries without the sha `s` key leaves
commit `s`'s record unchanged. -/
theorem chFold_aux (date : Int) (s : String) :
    ∀ (hist : Hist) (m : List (String × List (Int × Nat))),
      (∀ v : Nat, (Key.sha s, v) ∉ hist) →
      aGetD (hist.foldl (chStep date) m) s [] = aGetD m s [] := by
  intro hist
  induction hist with
  | nil =>
    intro m hno
    rfl
  | cons kv t ih =>
    intro m hno
    obtain ⟨k, v⟩ := kv
    have hno' : ∀ v' : Nat, (Key.sha s, v') ∉ t :=
      fun v' hmem => hno v' (List.mem_cons_of_mem _ hmem)
    have hfold : ((k, v) :: t).foldl (chStep date) m = t.foldl (chStep date) (chStep date m (k, v)) := rfl
    rw [hfold, ih _ hno']
    cases k with
    | sha s' =>
      have hs : s' ≠ s := by
        intro he
        exact hno v (by simp [he])
      simp only [chStep, aGetD]
      rw [aGet?_setdefaultAppend_ne m s' s _ hs]
    | cohort l => rfl
    | ext e => rfl
    | author a => rfl
    | filesize n => rfl

/-- The survival step over a key-unique histogram appends exactly one
`(date, count)` pair for commit `s` when the sha key is present, nothing
otherwise. -/
theorem chFold_spec (date : Int) (s : String) :
    ∀ (hist : Hist) (m : List (String × List (Int × Nat))), NodupKeys hist →
      aGetD (hist.foldl (chStep date) m) s []
        = aGetD m s []
          ++ (if hasKey hist (Key.sha s) then [(date, hget hist (Key.sha s))] else []) := by
  intro hist
  induction hist with
  | nil =>
    intro m hnd
    simp [hasKey]
  | cons kv t ih =>
    intro m hnd
    obtain ⟨k, v⟩ := kv
    rcases List.nodup_cons.mp hnd with ⟨hk, hnd'⟩
    have hfold : ((k, v) :: t).foldl (chStep date) m = t.foldl (chStep date) (chStep date m (k, v)) := rfl
    by_cases hks : k = Key.sha s
    · subst hks
      have hno : ∀ v' : Nat, (Key.sha s, v') ∉ t := by
        intro v' hmem
        exact hk (by simpa using List.mem_map_of_mem Prod.fst hmem)
      rw [hfold, chFold_aux date s t _ hno]
      simp only [chStep, aGetD, hasKey, hget, if_pos rfl]
      rw [aGet?_setdefaultAppend_self]
      rfl
    · have hhas : hasKey ((Key.sha s, v) :: t) (Key.sha s) = true := by simp [hasKey]
      rw [hfold, ih _ hnd']
      have h1 : hasKey ((k, v) :: t) (Key.sha s) = hasKey t (Key.sha s) := by
        simp [hasKey, hks]
      have h2 : hget ((k, v) :: t) (Key.sha s) = hget t (Key.sha s) := by
        simp [hget, hks]
      rw [h1, h2]
      cases k with
      | sha s' =>
        have hs : s' ≠ s := fun he => hks (by rw [he])
        simp only [chStep, aGetD]
        rw [aGet?_setdefaultAppend_ne m s' s _ hs]
      | cohort l => rfl
      | ext e => rfl
      | author a => rfl
      | filesize n => rfl

theorem stepA_curves (ctx : Ctx) (cs : List Key) (st : AState) (c : Commit) :
    (stepA ctx cs st c).curves
      = cs.foldl
          (fun cur k =>
            setdefaultAppend cur k (hget (stepCacheHist ctx st.lastCommit st.cache c).2 k))
          st.curves := rfl

theorem stepA_commitHistory (ctx : Ctx) (cs : List Key) (st : AState) (c : Commit) :
    (stepA ctx cs st c).commitHistory
      = (stepCacheHist ctx st.lastCommit st.cache c).2.foldl (chStep c.committedDate)
          st.commitHistory := rfl

theorem checkpointHistsAux_cons (ctx : Ctx) (lastC : Option String) (cache : Cache)
    (c : Commit) (rest : List Commit) :
    checkpointHistsAux ctx lastC cache (c :: rest)
      = (stepCacheHist ctx lastC cache c).2
          :: checkpointHistsAux ctx (some c.hexsha) (stepCacheHist ctx lastC cache c).1 rest :=
  rfl

/-- The whole checkpoint loop, relative to any starting state: curves of
universe keys extend by the per-checkpoint counts, other curves are
untouched, timestamps extend by the checkpoint dates, and each commit's
survival record extends by its sparse survival entries. -/
theorem loop_spec (ctx : Ctx) (cs : List Key) (hnd : cs.Nodup) :
    ∀ (cps : List Commit) (st : AState),
      (∀ k ∈ cs,
        aGetD (List.foldl (stepA ctx cs) st cps).curves k []
          = aGetD st.curves k []
            ++ (checkpointHistsAux ctx st.lastCommit st.cache cps).map (fun h => hget h k)) ∧
      (∀ k, k ∉ cs →
        aGet? (List.foldl (stepA ctx cs) st cps).curves k = aGet? st.curves k) ∧
      (List.foldl (stepA ctx cs) st cps).ts = st.ts ++ cps.map Commit.committedDate ∧
      (∀ s : String,
        aGetD (List.foldl (stepA ctx cs) st cps).commitHistory s []
          = aGetD st.commitHistory s []
            ++ survivalEntries s
                (cps.zip (checkpointHistsAux ctx st.lastCommit st.cache cps))) := by
  intro cps
  induction cps with
  | nil =>
    intro st
    refine ⟨?_, fun k hk => rfl, by simp, ?_⟩
    · intro k hk
      simp [checkpointHistsAux]
    · intro s
      simp [checkpointHistsAux, survivalEntries]
  | cons c rest ih =>
    intro st
    obtain ⟨IH1, IH2, IH3, IH4⟩ := ih (stepA ctx cs st c)
    have hfold : List.foldl (stepA ctx cs) st (c :: rest)
        = List.foldl (stepA ctx cs) (stepA ctx cs st c) rest := rfl
    have hcur := curvesFold_spec (stepCacheHist ctx st.lastCommit st.cache c).2 cs st.curves hnd
    have hstA_last : (stepA ctx cs st c).lastCommit = some c.hexsha := rfl
    have hstA_cache : (stepA ctx cs st c).cache = (stepCacheHist ctx st.lastCommit st.cache c).1 := rfl
    refine ⟨?_, ?_, ?_, ?_⟩
    · intro k hk
      rw [hfold, IH1 k hk, stepA_curves, hcur.1 k hk, hstA_last, hstA_cache,
        checkpointHistsAux_cons]
      simp [List.append_assoc]
    · intro k hk
      rw [hfold, IH2 k hk, stepA_curves, hcur.2 k hk]
    · rw [hfold, IH3]
      show (st.ts ++ [c.committedDate]) ++ rest.map Commit.committedDate = _
      simp
    · intro s
      rw [hfold, IH4 s, stepA_commitHistory,
        chFold_spec c.committedDate s _ st.commitHistory
          (nodupKeys_stepCacheHist ctx st.lastCommit st.cache c),
        hstA_last, hstA_cache, checkpointHistsAux_cons]
      have hzip : (c :: rest).zip
          ((stepCacheHist ctx st.lastCommit st.cache c).2
            :: checkpointHistsAux ctx (some c.hexsha)
                (stepCacheHist ctx st.lastCommit st.cache c).1 rest)
          = (c, (stepCacheHist ctx st.lastCommit st.cache c).2)
            :: rest.zip (checkpointHistsAux ctx (some c.hexsha)
                (stepCacheHist ctx st.lastCommit st.cache c).1 rest) := rfl
      rw [hzip]
      show _ = _ ++ ((if hasKey (stepCacheHist ctx st.lastCommit st.cache c).2 (Key.sha s) then
          [(c.committedDate, hget (stepCacheHist ctx st.lastCommit st.cache c).2 (Key.sha s))]
        else []) ++ _)
      simp [List.append_assoc]

/-- A property preserved by every fold step holds for the fold. -/
theorem foldl_preserve {α β : Type} (P : α → Prop) (f : α → β → α)
    (hf : ∀ a b, P a → P (f a b)) :
    ∀ (l : List β) (a : α), P a → P (l.foldl f a) := by
  intro l
  induction l with
  | nil =>
    intro a h
    exact h
  | cons x t ih =>
    intro a h
    exact ih _ (hf a x h)

theorem setInsert_nodup (s : List Key) (k : Key) (hnd : s.Nodup) : (setInsert s k).Nodup := by
  unfold setInsert
  split
  · exact hnd
  · next hk =>
    refine List.Nodup.append hnd (List.nodup_singleton k) ?_
    intro x hx hx'
    simp at hx'
    exact hk (hx' ▸ hx)

/-- The key universe has no duplicate keys. -/
theorem curvesSetOf_nodup (repo : Repo) (cfg : Config) (allCommits : List Commit)
    (cps : List Commit) : (curvesSetOf repo cfg allCommits cps).Nodup := by
  unfold curvesSetOf
  apply foldl_preserve (fun s : List Key => s.Nodup)
  · intro s c h
    apply foldl_preserve (fun s : List Key => s.Nodup)
    · intro s b h
      exact setInsert_nodup _ _ (setInsert_nodup _ _ h)
    · exact h
  · apply foldl_preserve (fun s : List Key => s.Nodup)
    · intro s c h
      exact setInsert_nodup _ _ (setInsert_nodup _ _ h)
    · exact List.nodup_nil

/-- Each survival entry comes from a checkpoint whose histogram carries the
sha key, with that checkpoint's date and count. -/
theorem mem_survivalEntries (s : String) :
    ∀ (l : List (Commit × Hist)) (e : Int × Nat), e ∈ survivalEntries s l →
      ∃ p ∈ l, hasKey p.2 (Key.sha s) = true ∧
        e = (p.1.committedDate, hget p.2 (Key.sha s)) := by
  intro l
  induction l with
  | nil =>
    intro e he
    simp [survivalEntries] at he
  | cons p t ih =>
    intro e he
    obtain ⟨c0, h0⟩ := p
    rcases List.mem_append.mp he with h1 | h1
    · by_cases hk : hasKey h0 (Key.sha s) = true
      · rw [if_pos hk] at h1
        simp at h1
        exact ⟨(c0, h0), List.mem_cons_self _ _, hk, h1⟩
      · rw [if_neg hk] at h1
        simp at h1
    · rcases ih e h1 with ⟨q, hq, hkq, hey⟩
      exact ⟨q, List.mem_cons_of_mem _ hq, hkq, hey⟩

/-- If the per-checkpoint counts of commit `s` are pairwise non-increasing,
so are its recorded survival counts. -/
theorem chain_survivalEntries (s : String) :
    ∀ (l : List (Commit × Hist)),
      List.Pairwise (fun p q => hget q.2 (Key.sha s) ≤ hget p.2 (Key.sha s)) l →
      List.Chain' (fun a b => b.2 ≤ a.2) (survivalEntries s l) := by
  intro l
  induction l with
  | nil =>
    intro h
    simp [survivalEntries]
  | cons p t ih =>
    intro hp
    rcases List.pairwise_cons.mp hp with ⟨hhead, htail⟩
    obtain ⟨c0, h0⟩ := p
    show List.Chain' _
      ((if hasKey h0 (Key.sha s) then [(c0.committedDate, hget h0 (Key.sha s))] else [])
        ++ survivalEntries s t)
    by_cases hk : hasKey h0 (Key.sha s) = true
    · rw [if_pos hk]
      refine List.chain'_cons'.mpr ⟨?_, ih htail⟩
      intro y hy
      have hmem : y ∈ survivalEntries s t := List.mem_of_mem_head? hy
      rcases mem_survivalEntries s t y hmem with ⟨q, hq, hkq, hey⟩
      rw [hey]
      exact hhead q hq
    · rw [if_neg hk]
      simpa using ih htail

/-- If every checkpoint where commit `s` is present carries a positive
count, every recorded survival count is positive. -/
theorem pos_survivalEntries (s : String) (l : List (Commit × Hist))
    (hpos : ∀ p ∈ l, hasKey p.2 (Key.sha s) = true → 0 < hget p.2 (Key.sha s)) :
    ∀ e ∈ survivalEntries s l, 0 < e.2 := by
  intro e he
  rcases mem_survivalEntries s l e he with ⟨q, hq, hkq, hey⟩
  rw [hey]
  exact hpos q hq hkq

/-- The survival document of a run is exactly the sparse survival-entry
collection over the per-checkpoint histograms. -/
theorem analyze_commitHistory_spec (repo : Repo) (cfg : Config) (allCommits : List Commit)
    (head : Commit) (fuel : Nat) (s : String) :
    aGetD (analyze repo cfg allCommits head fuel).commitHistory s []
      = survivalEntries s (analyzeHists (analyze repo cfg allCommits head fuel)) := by
  have hnd := curvesSetOf_nodup repo cfg allCommits (masterCommitsOf repo cfg head fuel)
  have h := (loop_spec (mkCtx repo cfg allCommits) _ hnd
    (masterCommitsOf repo cfg head fuel) initAState).2.2.2 s
  rw [analyze_commitHistory]
  simpa [analyzeLoop, initAState, analyzeHists, checkpointHists, analyze_masterCommits,
    analyze_ctx, aGetD, aGet?] using h

/-- The curve of every universe key is the per-checkpoint count sequence. -/
theorem analyze_curves_spec (repo : Repo) (cfg : Config) (allCommits : List Commit)
    (head : Commit) (fuel : Nat) :
    (∀ k, k ∉ (analyze repo cfg allCommits head fuel).curvesSet →
      aGet? (analyze repo cfg allCommits head fuel).curves k = none) ∧
    (∀ k ∈ (analyze repo cfg allCommits head fuel).curvesSet,
      aGetD (analyze repo cfg allCommits head fuel).curves k []
        = (checkpointHists (mkCtx repo cfg allCommits)
            (analyze repo cfg allCommits head fuel).masterCommits).map
            (fun h => hget h k)) := by
  have hnd := curvesSetOf_nodup repo cfg allCommits (masterCommitsOf repo cfg head fuel)
  have h := loop_spec (mkCtx repo cfg allCommits) _ hnd
    (masterCommitsOf repo cfg head fuel) initAState
  constructor
  · intro k hk
    rw [analyze_curves]
    have h2 := h.2.1 k (by rwa [analyze_curvesSet] at hk)
    simpa [analyzeLoop, initAState, aGet?] using h2
  · intro k hk
    have h1 := h.1 k (by rwa [analyze_curvesSet] at hk)
    rw [analyze_curves]
    simpa [analyzeLoop, initAState, checkpointHists, analyze_masterCommits, analyze_ctx,
      aGetD, aGet?] using h1

/-- Equal cohort-, extension- and author-kind totals of a histogram: the
three partitions of the same line count. -/
def EqKinds (h : Hist) : Prop :=
  kindSum h Kind.cohort = kindSum h Kind.ext ∧
  kindSum h Kind.ext = kindSum h Kind.author

/-- Every histogram stored in the cache has equal kind totals. -/
def CacheEqKinds (cache : Cache) : Prop :=
  ∀ p h, aGet? cache p = some h → EqKinds h

theorem eqKinds_nil : EqKinds [] := ⟨rfl, rfl⟩

/-- Every per-file histogram has equal cohort/ext/author totals, whether
blame succeeds or fails. -/
theorem eqKinds_get_file_histogram (ctx : Ctx) (commitSha path : String) :
    EqKinds (get_file_histogram ctx commitSha path) := by
  refine ⟨?_, ?_⟩
  · rw [kindSum_get_file_histogram ctx commitSha path Kind.cohort (by decide),
      kindSum_get_file_histogram ctx commitSha path Kind.ext (by decide)]
  · rw [kindSum_get_file_histogram ctx commitSha path Kind.ext (by decide),
      kindSum_get_file_histogram ctx commitSha path Kind.author (by decide)]

theorem eqKinds_mergeInto (h src : Hist) (hh : EqKinds h) (hs : EqKinds src) :
    EqKinds (mergeInto h src) := by
  obtain ⟨h1, h2⟩ := hh
  obtain ⟨s1, s2⟩ := hs
  constructor
  · rw [kindSum_mergeInto, kindSum_mergeInto, h1, s1]
  · rw [kindSum_mergeInto, kindSum_mergeInto, h2, s2]

/-- A value read back after a store is the stored value or an old value. -/
theorem aGet?_aSet_cases {α β : Type} [DecidableEq α] (m : List (α × β)) (a : α) (b v : β)
    (q : α) (h : aGet? (aSet m a b) q = some v) : v = b ∨ aGet? m q = some v := by
  by_cases hq : a = q
  · subst hq
    rw [aGet?_aSet_self] at h
    exact Or.inl (Option.some.inj h).symm
  · rw [aGet?_aSet_ne m a q b hq] at h
    exact Or.inr h

theorem cacheEqKinds_blobStep (ctx : Ctx) (cSha : String) (changed : List String)
    (acc : Cache × Hist) (b : Blob) (hc : CacheEqKinds acc.1) :
    CacheEqKinds (blobStep ctx cSha changed acc b).1 := by
  intro p h hp
  rw [blobStep_fst] at hp
  revert hp
  split
  · intro hp
    rcases aGet?_aSet_cases acc.1 b.path _ h p hp with h1 | h1
    · rw [h1]
      exact eqKinds_get_file_histogram ctx cSha b.path
    · exact hc p h h1
  · intro hp
    exact hc p h hp

theorem eqKinds_aGetD (cache : Cache) (p : String) (hc : CacheEqKinds cache) :
    EqKinds (aGetD cache p []) := by
  unfold aGetD
  cases hg : aGet? cache p with
  | none => exact eqKinds_nil
  | some h => exact hc p h hg

/-- Over the blob loop, cache values and the accumulated checkpoint
histogram keep their kind totals equal. -/
theorem eqKinds_blobStep_fold (ctx : Ctx) (cSha : String) (changed : List String) :
    ∀ (blobs : List Blob) (acc : Cache × Hist),
      CacheEqKinds acc.1 → EqKinds acc.2 →
      CacheEqKinds (blobs.foldl (blobStep ctx cSha changed) acc).1 ∧
      EqKinds (blobs.foldl (blobStep ctx cSha changed) acc).2 := by
  intro blobs
  induction blobs with
  | nil =>
    intro acc h1 h2
    exact ⟨h1, h2⟩
  | cons b bs ih =>
    intro acc h1 h2
    have hc' := cacheEqKinds_blobStep ctx cSha changed acc b h1
    have hh' : EqKinds (blobStep ctx cSha changed acc b).2 := by
      rw [blobStep_snd]
      exact eqKinds_mergeInto _ _ h2 (eqKinds_aGetD _ _ hc')
    exact ih _ hc' hh'

theorem eqKinds_stepCacheHist (ctx : Ctx) (lastC : Option String) (cache : Cache)
    (c : Commit) (hc : CacheEqKinds cache) :
    CacheEqKinds (stepCacheHist ctx lastC cache c).1 ∧
    EqKinds (stepCacheHist ctx lastC cache c).2 :=
  eqKinds_blobStep_fold ctx c.hexsha (ctx.repo.diff lastC c.hexsha) _ (cache, []) hc
    eqKinds_nil

theorem eqKinds_checkpointHistsAux (ctx : Ctx) :
    ∀ (cps : List Commit) (lastC : Option String) (cache : Cache),
      CacheEqKinds cache →
      ∀ h ∈ checkpointHistsAux ctx lastC cache cps, EqKinds h := by
  intro cps
  induction cps with
  | nil =>
    intro lastC cache hc h hh
    simp [checkpointHistsAux] at hh
  | cons c rest ih =>
    intro lastC cache hc h hh
    rw [checkpointHistsAux_cons] at hh
    rcases List.mem_cons.mp hh with rfl | hh
    · exact (eqKinds_stepCacheHist ctx lastC cache c hc).2
    · exact ih (some c.hexsha) _ (eqKinds_stepCacheHist ctx lastC cache c hc).1 h hh

/-- Unconditionally, every checkpoint histogram of a run — cached entries
included — has equal cohort-, extension- and author-kind totals. -/
theorem eqKinds_checkpointHists (ctx : Ctx) (cps : List Commit) :
    ∀ h ∈ checkpointHists ctx cps, EqKinds h :=
  eqKinds_checkpointHistsAux ctx cps none [] (fun p h hp => by simp [aGet?] at hp)

/-! ## Claim theorems -/

/-- C2: `entry_path_ok(path)` (the `isTrackable` predicate) returns true
only if: the base file name matches the filetype catalog unless the
all-filetypes override is set; if the allow list `only` is non-empty the
path matches at least one of its patterns; and the path matches no pattern
of the deny list `ignore`.  (The source requires matching *all* `only`
patterns, which implies matching at least one when the list is non-empty,
so these necessary conditions hold for every queried path.) -/
theorem C2_thm (cfg : Config) (path : String) (h : entry_path_ok cfg path = true) :
    (cfg.allFiletypes = false →
      ∃ ft ∈ cfg.defaultFiletypes, cfg.fnmatch (baseName path) ft = true) ∧
    (cfg.only ≠ [] → ∃ pat ∈ cfg.only, cfg.fnmatch path pat = true) ∧
    (∀ pat ∈ cfg.ignore, cfg.fnmatch path pat = false) := by
  unfold entry_path_ok at h
  simp only [Bool.and_eq_true, Bool.or_eq_true, List.any_eq_true, List.all_eq_true,
    Bool.not_eq_true'] at h
  obtain ⟨⟨h1, h2⟩, h3⟩ := h
  refine ⟨?_, ?_, ?_⟩
  · intro hall
    rcases h1 with h1 | h1
    · rw [hall] at h1
      exact absurd h1 (by simp)
    · exact h1
  · intro hne
    cases honly : cfg.only with
    | nil => exact absurd honly hne
    | cons p t =>
      exact ⟨p, by simp [honly], h2 p (by simp [honly])⟩
  · intro pat hpat
    have := List.any_eq_false.mp h3 pat hpat
    simpa using this

/-- C2 witness: a concrete trackable path with non-empty allow and deny
lists, run through the theorem. -/
theorem C2_witness :
    entry_path_ok
      { cohortfm := fun _ => "y", interval := 0, ignore := ["test_*.py"],
        only := ["*.py"], allFiletypes := false, fnmatch := pyFnmatch,
        defaultFiletypes := ["*.py"] } "a.py" = true ∧
    ((∃ ft ∈ ["*.py"], pyFnmatch (baseName "a.py") ft = true) ∧
      (∃ pat ∈ ["*.py"], pyFnmatch "a.py" pat = true) ∧
      (∀ pat ∈ ["test_*.py"], pyFnmatch "a.py" pat = false)) := by
  refine ⟨by decide, ?_⟩
  have h := C2_thm
    { cohortfm := fun _ => "y", interval := 0, ignore := ["test_*.py"],
      only := ["*.py"], allFiletypes := false, fnmatch := pyFnmatch,
      defaultFiletypes := ["*.py"] } "a.py" (by decide)
  exact ⟨h.1 rfl, h.2.1 (by decide), h.2.2⟩

/-- C3: whenever blame fails for a path at a checkpoint, the failure is
caught inside `get_file_histogram` (not propagated): the path yields the
empty histogram, merging it leaves the checkpoint histogram unchanged, and
the checkpoint loop still produces one histogram per checkpoint. -/
theorem C3_thm (ctx : Ctx) (commitSha path : String) (err : Unit)
    (hfail : ctx.repo.blame commitSha path = .error err) :
    get_file_histogram ctx commitSha path = [] ∧
    (∀ h : Hist, mergeInto h (get_file_histogram ctx commitSha path) = h) ∧
    ∀ (ctx' : Ctx) (cps : List Commit), (checkpointHists ctx' cps).length = cps.length := by
  have h1 : get_file_histogram ctx commitSha path = [] := by
    unfold get_file_histogram
    rw [hfail]
  refine ⟨h1, ?_, ?_⟩
  · intro h
    rw [h1]
    rfl
  · intro ctx' cps
    exact length_checkpointHists ctx' cps

/-- C3 witness: a repository whose blame always fails, with a concrete
merge left unchanged and the failing run still covering every checkpoint. -/
theorem C3_witness :
    ctx3.repo.blame "c" "bad.py" = .error () ∧
    get_file_histogram ctx3 "c" "bad.py" = [] ∧
    mergeInto [(Key.ext ".py", 2)] (get_file_histogram ctx3 "c" "bad.py")
      = [(Key.ext ".py", 2)] ∧
    (checkpointHists ctx3 [commitM, commitT]).length = 2 := by
  have h := C3_thm ctx3 "c" "bad.py" () rfl
  exact ⟨rfl, h.1, h.2.1 _, h.2.2 ctx3 [commitM, commitT]⟩

/-- C8: the chronological checkpoint list is strictly ascending by
timestamp and consecutive checkpoints are at least `interval` apart
(here proved for every pair, so in particular away from the tip), provided
the configured interval is non-negative. -/
theorem C8_thm (repo : Repo) (cfg : Config) (allCommits : List Commit) (head : Commit)
    (fuel : Nat) (hI : 0 ≤ cfg.interval) :
    List.Chain'
      (fun a b => a.committedDate < b.committedDate ∧
        cfg.interval ≤ b.committedDate - a.committedDate)
      (analyze repo cfg allCommits head fuel).masterCommits := by
  rw [analyze_masterCommits]
  unfold masterCommitsOf
  rw [List.chain'_reverse]
  have h := (backtrack_spec repo.lookup cfg.interval fuel head none).1
  refine List.Chain'.imp ?_ h
  intro a b hab
  exact ⟨by omega, by omega⟩

/-- C8 witness: the three-commit scenario run with `interval = 0`. -/
theorem C8_witness :
    0 ≤ cfg1.interval ∧
    List.Chain'
      (fun a b => a.committedDate < b.committedDate ∧
        cfg1.interval ≤ b.committedDate - a.committedDate)
      (analyze repo1 cfg1 all1 commitT 10).masterCommits :=
  ⟨by decide, C8_thm repo1 cfg1 all1 commitT 10 (by decide)⟩

/-- C9 (amended): a blame entry whose commit is absent from
`commit2cohort` is still counted — under the literal `"MISSING"` cohort
label (not `"unresolved"`) — in its file histogram, and at every
checkpoint of every run over this context the checkpoint histogram's
cohort-dimension total stays equal to the extension- and author-dimension
totals. -/
theorem C9_thm (ctx : Ctx) (commitSha path : String) (es : List (Commit × Nat))
    (e : Commit × Nat) (hok : ctx.repo.blame commitSha path = .ok es) (hmem : e ∈ es)
    (hmiss : aGet? ctx.commit2cohort e.1.hexsha = none) :
    e.2 ≤ hget (get_file_histogram ctx commitSha path) (Key.cohort "MISSING") ∧
    kindSum (get_file_histogram ctx commitSha path) Kind.cohort
      = kindSum (get_file_histogram ctx commitSha path) Kind.author ∧
    kindSum (get_file_histogram ctx commitSha path) Kind.ext
      = kindSum (get_file_histogram ctx commitSha path) Kind.author ∧
    ∀ (cps : List Commit), ∀ h ∈ checkpointHists ctx cps,
      kindSum h Kind.cohort = kindSum h Kind.ext ∧
      kindSum h Kind.ext = kindSum h Kind.author := by
  refine ⟨?_, ?_, ?_, ?_⟩
  · have hform : hget (get_file_histogram ctx commitSha path) (Key.cohort "MISSING")
        = (es.map (fun e => if Key.cohort "MISSING" ∈ mkKeys ctx path e then e.2 else 0)).sum := by
      unfold get_file_histogram
      rw [hok]
      simpa [hget] using hget_foldEntries ctx path es [] (Key.cohort "MISSING")
    rw [hform]
    have hf : (if Key.cohort "MISSING" ∈ mkKeys ctx path e then e.2 else 0) = e.2 :=
      if_pos (cohort_missing_mem_mkKeys ctx path e hmiss)
    exact hf ▸ List.le_sum_of_mem (List.mem_map_of_mem _ hmem)
  · rw [kindSum_get_file_histogram ctx commitSha path Kind.cohort (by decide),
      kindSum_get_file_histogram ctx commitSha path Kind.author (by decide)]
  · rw [kindSum_get_file_histogram ctx commitSha path Kind.ext (by decide),
      kindSum_get_file_histogram ctx commitSha path Kind.author (by decide)]
  · intro cps h hh
    exact eqKinds_checkpointHists ctx cps h hh

/-- C9 witness: the ghost-commit repository, where a two-line blame entry
is counted under the `"MISSING"` cohort, and the checkpoint histogram of a
run over the ghost commit keeps its cohort total equal to the extension
and author totals. -/
theorem C9_witness :
    ctx4.repo.blame "zzz" "deep/h.py" = .ok [(commitG, 2)] ∧
    aGet? ctx4.commit2cohort commitG.hexsha = none ∧
    2 ≤ hget (get_file_histogram ctx4 "zzz" "deep/h.py") (Key.cohort "MISSING") ∧
    kindSum (get_file_histogram ctx4 "zzz" "deep/h.py") Kind.cohort
      = kindSum (get_file_histogram ctx4 "zzz" "deep/h.py") Kind.author ∧
    [(Key.cohort "MISSING", 2), (Key.ext ".py", 2), (Key.author "carol", 2),
      (Key.filesize 0, 2)] ∈ checkpointHists ctx4 [commitG] ∧
    kindSum [(Key.cohort "MISSING", 2), (Key.ext ".py", 2), (Key.author "carol", 2),
        (Key.filesize 0, 2)] Kind.cohort
      = kindSum [(Key.cohort "MISSING", 2), (Key.ext ".py", 2), (Key.author "carol", 2),
          (Key.filesize 0, 2)] Kind.ext := by
  have h := C9_thm ctx4 "zzz" "deep/h.py" [(commitG, 2)] (commitG, 2)
    rfl (by decide) (by decide)
  refine ⟨rfl, by decide, h.1, h.2.1, by decide, ?_⟩
  exact (h.2.2.2 [commitG]
    [(Key.cohort "MISSING", 2), (Key.ext ".py", 2), (Key.author "carol", 2),
      (Key.filesize 0, 2)] (by decide)).1

/-- C9 counterexample: the fallback cohort label is the literal
`"MISSING"`, not `"unresolved"` as the claim states — at a concrete input
the histogram has no `"unresolved"` cohort key and counts the missing
commit's two lines under `"MISSING"`. -/
theorem C9_counterexample :
    hasKey (get_file_histogram ctx4 "zzz" "deep/h.py") (Key.cohort "unresolved") = false ∧
    hget (get_file_histogram ctx4 "zzz" "deep/h.py") (Key.cohort "MISSING") = 2 := by
  decide

/-- C10: the filesize lookup of `get_file_histogram` compares blob base
names against the full repository path, so for any path inside a
subdirectory it never matches: all of the file's lines are counted under
`(filesize, 0)`, and no non-zero filesize key receives any of them. -/
theorem C10_thm (ctx : Ctx) (commitSha path : String) (hsub : path ≠ baseName path) :
    hget (get_file_histogram ctx commitSha path) (Key.filesize 0)
      = blameTotal ctx commitSha path ∧
    ∀ m : Nat, m ≠ 0 → hget (get_file_histogram ctx commitSha path) (Key.filesize m) = 0 := by
  unfold get_file_histogram blameTotal
  cases hb : ctx.repo.blame commitSha path with
  | error e => simp [hget]
  | ok es =>
    constructor
    · have hform := hget_foldEntries ctx path es [] (Key.filesize 0)
      rw [hform]
      simp only [hget, Nat.zero_add]
      refine congrArg List.sum (List.map_congr_left ?_)
      intro e he
      exact if_pos (mkKeys_filesize_subdir ctx path e hsub).1
    · intro m hm
      have hform := hget_foldEntries ctx path es [] (Key.filesize m)
      rw [hform]
      simp only [hget, Nat.zero_add]
      apply List.sum_eq_zero
      intro x hx
      rcases List.mem_map.mp hx with ⟨e, he, rfl⟩
      exact if_neg ((mkKeys_filesize_subdir ctx path e hsub).2 m hm)

/-- C10 witness: the subdirectory path `deep/h.py`, whose two blamed lines
all land on `(filesize, 0)` while the blob's true size 9 receives none. -/
theorem C10_witness :
    "deep/h.py" ≠ baseName "deep/h.py" ∧
    hget (get_file_histogram ctx4 "zzz" "deep/h.py") (Key.filesize 0)
      = blameTotal ctx4 "zzz" "deep/h.py" ∧
    hget (get_file_histogram ctx4 "zzz" "deep/h.py") (Key.filesize 9) = 0 := by
  have h := C10_thm ctx4 "zzz" "deep/h.py" (by decide)
  exact ⟨by decide, h.1, h.2 9 (by decide)⟩

/-- C1 counterexample: in the three-commit scenario with `interval = 0`
the sampler yields 2 checkpoints, not 3 — the root commit has no parents
and the backtracking loop breaks before ever selecting it. -/
theorem C1_counterexample :
    (analyze repo1 cfg1 all1 commitT 10).masterCommits.length ≠ 3 := by
  decide

/-- C1 (amended): in the three-commit scenario with `interval = 0` the
sampler yields exactly 2 checkpoints (the two commits that have a parent),
the cohort series' per-checkpoint totals are `[2, 3]`, and the survival
document has 2 entries: the middle commit with `[(t1, 1), (t2, 1)]` and
the tip with the single pair `[(t2, 1)]`. -/
theorem C1_amended_thm :
    (analyze repo1 cfg1 all1 commitT 10).masterCommits.length = 2 ∧
    cohortTotals (analyze repo1 cfg1 all1 commitT 10) = [2, 3] ∧
    (analyze repo1 cfg1 all1 commitT 10).commitHistory
      = [("m", [(100, 1), (200, 1)]), ("t", [(200, 1)])] := by
  decide

/-- C4: under diff/blame coherence of consecutive checkpoints (the
contract the code assumes of git), for every checkpoint and every file
present there that is not in the changed-file set computed from the diff
against the previous checkpoint, the cached histogram served at that
checkpoint equals a fresh blame-based recomputation at that checkpoint. -/
theorem C4_thm (repo : Repo) (cfg : Config) (allCommits : List Commit) (head : Commit)
    (fuel : Nat)
    (hch : List.Chain' (coherentStep (mkCtx repo cfg allCommits))
      (analyze repo cfg allCommits head fuel).masterCommits) :
    ∀ i c, (analyze repo cfg allCommits head fuel).masterCommits.get? i = some c →
      ∀ b ∈ get_blob_entries cfg (repo.tree c.hexsha),
        b.path ∉ repo.diff
          (prevShaAt (analyze repo cfg allCommits head fuel).masterCommits i) c.hexsha →
        aGet? (cacheAfter (mkCtx repo cfg allCommits)
            ((analyze repo cfg allCommits head fuel).masterCommits.take (i + 1))) b.path
          = some (get_file_histogram (mkCtx repo cfg allCommits) c.hexsha b.path) := by
  intro i c hc b hb hnd
  exact cacheAfter_fresh (mkCtx repo cfg allCommits) _ hch i c hc b hb

/-- C4 witness: the two-file history, where `g.py` is unchanged at the
second checkpoint and its cached histogram equals the fresh one. -/
theorem C4_witness :
    List.Chain' (coherentStep ctx2) (analyze repo2 cfg1 all2 commitQ2 10).masterCommits ∧
    (analyze repo2 cfg1 all2 commitQ2 10).masterCommits.get? 1 = some commitQ2 ∧
    (⟨"g.py", 5⟩ : Blob) ∈ get_blob_entries cfg1 (repo2.tree commitQ2.hexsha) ∧
    "g.py" ∉ repo2.diff
      (prevShaAt (analyze repo2 cfg1 all2 commitQ2 10).masterCommits 1) commitQ2.hexsha ∧
    aGet? (cacheAfter ctx2 ((analyze repo2 cfg1 all2 commitQ2 10).masterCommits.take 2)) "g.py"
      = some (get_file_histogram ctx2 commitQ2.hexsha "g.py") := by
  have hmc : (analyze repo2 cfg1 all2 commitQ2 10).masterCommits = [commitQ1, commitQ2] := by
    decide
  have hch : List.Chain' (coherentStep ctx2) (analyze repo2 cfg1 all2 commitQ2 10).masterCommits := by
    rw [hmc]
    exact List.chain'_pair.mpr (by decide)
  refine ⟨hch, by decide, by decide, by decide, ?_⟩
  exact C4_thm repo2 cfg1 all2 commitQ2 10 hch 1 commitQ2 (by decide)
    ⟨"g.py", 5⟩ (by decide) (by decide)

/-- C5: for every source commit that appears in the survival document,
if its per-checkpoint attributed counts are non-increasing over the run
(the forward-attribution invariant of blame the spec assumes) and are
positive wherever the commit is present, then its recorded survival
counts are non-increasing across its successive recorded entries and
every recorded count is positive — in particular, once the count reaches
zero the commit gains no further entries. -/
theorem C5_thm (repo : Repo) (cfg : Config) (allCommits : List Commit) (head : Commit)
    (fuel : Nat) (s : String) (l : List (Int × Nat))
    (hrec : aGet? (analyze repo cfg allCommits head fuel).commitHistory s = some l)
    (hmono : List.Pairwise (fun p q => hget q.2 (Key.sha s) ≤ hget p.2 (Key.sha s))
      (analyzeHists (analyze repo cfg allCommits head fuel)))
    (hpos : ∀ p ∈ analyzeHists (analyze repo cfg allCommits head fuel),
      hasKey p.2 (Key.sha s) = true → 0 < hget p.2 (Key.sha s)) :
    List.Chain' (fun a b => b.2 ≤ a.2) l ∧ ∀ e ∈ l, 0 < e.2 := by
  have heq : l = survivalEntries s (analyzeHists (analyze repo cfg allCommits head fuel)) := by
    have h := analyze_commitHistory_spec repo cfg allCommits head fuel s
    rw [aGetD, hrec] at h
    exact h
  rw [heq]
  exact ⟨chain_survivalEntries s _ hmono, pos_survivalEntries s _ hpos⟩

/-- C5 witness: the middle commit of the three-commit scenario, recorded
at both checkpoints with count 1. -/
theorem C5_witness :
    aGet? (analyze repo1 cfg1 all1 commitT 10).commitHistory "m"
      = some [(100, 1), (200, 1)] ∧
    List.Chain' (fun a b : Int × Nat => b.2 ≤ a.2) [(100, 1), (200, 1)] ∧
    ∀ e ∈ [((100 : Int), (1 : Nat)), (200, 1)], 0 < e.2 := by
  have h := C5_thm repo1 cfg1 all1 commitT 10 "m" [(100, 1), (200, 1)]
    (by decide) (by decide) (by decide)
  exact ⟨by decide, h.1, h.2⟩

/-- C6: under diff/blame coherence, and with blame succeeding on every
trackable file of every checkpoint (so that blamed lines are exactly the
live trackable lines), at every checkpoint the cohort-kind, extension-kind
and author-kind sums of the checkpoint histogram all equal the total
number of currently-live trackable lines at that checkpoint. -/
theorem C6_thm (repo : Repo) (cfg : Config) (allCommits : List Commit) (head : Commit)
    (fuel : Nat)
    (hch : List.Chain' (coherentStep (mkCtx repo cfg allCommits))
      (analyze repo cfg allCommits head fuel).masterCommits)
    (hok : ∀ c ∈ (analyze repo cfg allCommits head fuel).masterCommits,
      ∀ b ∈ get_blob_entries cfg (repo.tree c.hexsha),
        blameOk (mkCtx repo cfg allCommits) c.hexsha b.path = true) :
    ∀ i c h, (analyze repo cfg allCommits head fuel).masterCommits.get? i = some c →
      (checkpointHists (mkCtx repo cfg allCommits)
        (analyze repo cfg allCommits head fuel).masterCommits).get? i = some h →
      kindSum h Kind.cohort = totalLive (mkCtx repo cfg allCommits) c ∧
      kindSum h Kind.ext = totalLive (mkCtx repo cfg allCommits) c ∧
      kindSum h Kind.author = totalLive (mkCtx repo cfg allCommits) c := by
  intro i c h hc hh
  have hspec := checkpointHists_spec (mkCtx repo cfg allCommits) _ hch i c hc
  rw [hh] at hspec
  have heq : h = freshHist (mkCtx repo cfg allCommits) c := Option.some.inj hspec
  subst heq
  exact ⟨kindSum_freshHist _ c Kind.cohort (by decide),
    kindSum_freshHist _ c Kind.ext (by decide),
    kindSum_freshHist _ c Kind.author (by decide)⟩

/-- C6 witness: the first checkpoint of the three-commit scenario, with
two live lines partitioned identically by cohort, extension and author. -/
theorem C6_witness :
    List.Chain' (coherentStep ctx1) (analyze repo1 cfg1 all1 commitT 10).masterCommits ∧
    totalLive ctx1 commitM = 2 ∧
    kindSum [(Key.cohort "2020", 1), (Key.ext ".py", 2), (Key.author "alice", 2),
        (Key.filesize 1, 1), (Key.cohort "2021", 1), (Key.filesize 2, 1), (Key.sha "m", 1)]
      Kind.cohort = totalLive ctx1 commitM ∧
    kindSum [(Key.cohort "2020", 1), (Key.ext ".py", 2), (Key.author "alice", 2),
        (Key.filesize 1, 1), (Key.cohort "2021", 1), (Key.filesize 2, 1), (Key.sha "m", 1)]
      Kind.author = totalLive ctx1 commitM := by
  have hmc : (analyze repo1 cfg1 all1 commitT 10).masterCommits = [commitM, commitT] := by
    decide
  have hch : List.Chain' (coherentStep ctx1) (analyze repo1 cfg1 all1 commitT 10).masterCommits := by
    rw [hmc]
    exact List.chain'_pair.mpr (by decide)
  have h := C6_thm repo1 cfg1 all1 commitT 10 hch (by decide) 0 commitM
    [(Key.cohort "2020", 1), (Key.ext ".py", 2), (Key.author "alice", 2),
      (Key.filesize 1, 1), (Key.cohort "2021", 1), (Key.filesize 2, 1), (Key.sha "m", 1)]
    (by decide) (by decide)
  exact ⟨hch, by decide, h.1, h.2.2⟩

/-- C7: the key universe is computed before checkpoint processing and the
curve map never holds a key outside it; every universe key's series is the
index-aligned sequence of its per-checkpoint counts (zero when the key is
absent from a checkpoint histogram), so all series have length equal to
the number of checkpoints. -/
theorem C7_thm (repo : Repo) (cfg : Config) (allCommits : List Commit) (head : Commit)
    (fuel : Nat) :
    (∀ k, k ∉ (analyze repo cfg allCommits head fuel).curvesSet →
      aGet? (analyze repo cfg allCommits head fuel).curves k = none) ∧
    (∀ k ∈ (analyze repo cfg allCommits head fuel).curvesSet,
      aGetD (analyze repo cfg allCommits head fuel).curves k []
        = (checkpointHists (mkCtx repo cfg allCommits)
            (analyze repo cfg allCommits head fuel).masterCommits).map
            (fun h => hget h k)) ∧
    (∀ k ∈ (analyze repo cfg allCommits head fuel).curvesSet,
      (aGetD (analyze repo cfg allCommits head fuel).curves k []).length
        = (analyze repo cfg allCommits head fuel).masterCommits.length) := by
  obtain ⟨h1, h2⟩ := analyze_curves_spec repo cfg allCommits head fuel
  refine ⟨h1, h2, ?_⟩
  intro k hk
  rw [h2 k hk, List.length_map, length_checkpointHists]

/-- C7 witness: in the three-commit scenario the `.py` extension key has
the aligned two-checkpoint series `[2, 3]`, while a key outside the
universe has no series at all. -/
theorem C7_witness :
    Key.ext ".py" ∈ (analyze repo1 cfg1 all1 commitT 10).curvesSet ∧
    aGetD (analyze repo1 cfg1 all1 commitT 10).curves (Key.ext ".py") [] = [2, 3] ∧
    (aGetD (analyze repo1 cfg1 all1 commitT 10).curves (Key.ext ".py") []).length
      = (analyze repo1 cfg1 all1 commitT 10).masterCommits.length ∧
    Key.ext ".c" ∉ (analyze repo1 cfg1 all1 commitT 10).curvesSet ∧
    aGet? (analyze repo1 cfg1 all1 commitT 10).curves (Key.ext ".c") = none := by
  have h := C7_thm repo1 cfg1 all1 commitT 10
  refine ⟨by decide, ?_, ?_, by decide, ?_⟩
  · exact ((h.2.1 (Key.ext ".py") (by decide)).trans (by decide))
  · exact h.2.2 (Key.ext ".py") (by decide)
  · exact h.1 (Key.ext ".c") (by decide)

end GitOfTheseus
